import Mathlib

/-!
Verification of the equivalence registry and jagged-tensor construction in
torch/nested/_internal/nested_tensor.py.

Descriptors ("vecs") are opaque objects used purely as identity keys; we model
object identities as natural numbers.  The WeakTensorKeyDictionary substrate is
modelled as an association list keyed by identity; weak-reference liveness is
modelled by an explicit set of live identities where it matters.
-/

namespace NTSpec

/-- Object identity of a descriptor (a vec, i.e. an offsets or lengths tensor). -/
abbrev Vec := Nat

/-- Lookup in an identity-keyed dictionary (WeakTensorKeyDictionary getitem,
returning none when the key is absent). -/
def look {α β : Type} [DecidableEq α] : List (α × β) → α → Option β
  | [], _ => none
  | (k, v) :: rest, x => if x = k then some v else look rest x

/-- Store into an identity-keyed dictionary (WeakTensorKeyDictionary setitem):
replaces the binding if the key is present, appends it otherwise. -/
def alSet {α β : Type} [DecidableEq α] : List (α × β) → α → β → List (α × β)
  | [], k, v => [(k, v)]
  | (k0, v0) :: rest, k, v =>
    if k = k0 then (k, v) :: rest else (k0, v0) :: alSet rest k v

theorem look_alSet {α β : Type} [DecidableEq α] (m : List (α × β)) (k : α) (v : β) (x : α) :
    look (alSet m k v) x = if x = k then some v else look m x := by
  induction m with
  | nil =>
    by_cases hx : x = k <;> simp [alSet, look, hx]
  | cons kv rest ih =>
    obtain ⟨k0, v0⟩ := kv
    by_cases hk : k = k0
    · subst hk
      by_cases hx : x = k <;> simp [alSet, look, hx]
    · by_cases hx : x = k0
      · subst hx
        have hxk : ¬ x = k := fun h => hk h.symm
        simp [alSet, look, hk, hxk]
      · simp [alSet, look, hk, hx, ih]

theorem length_alSet {α β : Type} [DecidableEq α] (m : List (α × β)) (k : α) (v : β) :
    (alSet m k v).length ≤ m.length + 1 := by
  induction m with
  | nil => simp [alSet]
  | cons kv rest ih =>
    obtain ⟨k0, v0⟩ := kv
    by_cases hk : k = k0
    · simp [alSet, hk]
    · simp [alSet, hk]
      omega

theorem look_some_mem_keys {α β : Type} [DecidableEq α] {m : List (α × β)} {x : α} {v : β}
    (h : look m x = some v) : x ∈ m.map Prod.fst := by
  induction m with
  | nil => simp [look] at h
  | cons kv rest ih =>
    obtain ⟨k0, v0⟩ := kv
    by_cases hx : x = k0
    · simp [hx]
    · simp [look, hx] at h
      simp [ih h]

/-- Body of the while loop of UnionFind.get_canonical_vec, with explicit fuel:
keeps following parent pointers until prev and curr coincide.  Returning none
models the loop never terminating (fuel exhausted) or a missing parent entry
(a KeyError in the source). -/
def chase (m : List (Vec × Vec)) : Nat → Vec → Vec → Option Vec
  | 0, prev, curr => if prev = curr then some curr else none
  | fuel + 1, prev, curr =>
    if prev = curr then some curr
    else
      match look m curr with
      | none => none
      | some nxt => chase m fuel curr nxt

/-- UnionFind.get_canonical_vec: if the vec is unseen, self-register it and
return it; otherwise walk parent pointers to the self-parented root, then
path-compress the queried vec directly onto the root.  Returns the canonical
vec together with the updated parent map. -/
def get_canonical_vec (m : List (Vec × Vec)) (vec : Vec) : Option (Vec × List (Vec × Vec)) :=
  match look m vec with
  | none => some (vec, alSet m vec vec)
  | some c =>
    match chase m (m.length + 1) vec c with
    | none => none
    | some root => some (root, alSet m vec root)

namespace UnionFind

/-- UnionFind.merge, transcribed line by line: self-register absent arguments,
then assign vecs[vecs[src]] := vecs[vecs[tgt]].  Returning none models a
KeyError on the inner reads. -/
def merge (m0 : List (Vec × Vec)) (src tgt : Vec) : Option (List (Vec × Vec)) :=
  let m1 := if (look m0 src).isNone then alSet m0 src src else m0
  let m2 := if (look m1 tgt).isNone then alSet m1 tgt tgt else m1
  match look m2 src, look m2 tgt with
  | some ps, some pt =>
    match look m2 pt with
    | some gpt => some (alSet m2 ps gpt)
    | none => none
  | _, _ => none

end UnionFind

/-- Parent chain of a vec down to a self-parented root, recording the visited
nodes in order.  This is the logical shape of a terminating run of the while
loop in get_canonical_vec. -/
inductive RootChain (m : List (Vec × Vec)) : Vec → List Vec → Vec → Prop
  | self (r : Vec) : look m r = some r → RootChain m r [r] r
  | step (k p : Vec) (l : List Vec) (r : Vec) :
      look m k = some p → k ≠ p → RootChain m p l r → RootChain m k (k :: l) r

theorem RootChain.look_head {m : List (Vec × Vec)} {k : Vec} {l : List Vec} {r : Vec}
    (h : RootChain m k l r) : ∃ p, look m k = some p := by
  cases h
  case self h1 => exact ⟨_, h1⟩
  case step p0 h1 h2 h3 => exact ⟨_, h1⟩

theorem RootChain.root_look {m : List (Vec × Vec)} {k : Vec} {l : List Vec} {r : Vec}
    (h : RootChain m k l r) : look m r = some r := by
  induction h with
  | self r1 hr1 => exact hr1
  | step k1 p1 l1 r1 hk1 hne1 hrest1 ih1 => exact ih1

theorem RootChain.mem_look {m : List (Vec × Vec)} {k : Vec} {l : List Vec} {r : Vec}
    (h : RootChain m k l r) : ∀ x ∈ l, ∃ p, look m x = some p := by
  induction h with
  | self r1 hr1 =>
    intro x hx
    simp at hx
    exact ⟨r1, hx ▸ hr1⟩
  | step k1 p1 l1 r1 hk1 hne1 hrest1 ih1 =>
    intro x hx
    rcases List.mem_cons.mp hx with h1 | h2
    · exact ⟨p1, h1 ▸ hk1⟩
    · exact ih1 x h2

theorem RootChain.unique {m : List (Vec × Vec)} {k : Vec} {l1 l2 : List Vec} {r1 r2 : Vec}
    (h1 : RootChain m k l1 r1) (h2 : RootChain m k l2 r2) : l1 = l2 ∧ r1 = r2 := by
  induction h1 generalizing l2 r2 with
  | self ra hra =>
    cases h2 with
    | self => exact ⟨rfl, rfl⟩
    | step _ pb lb rb hkb hneb hrestb =>
      rw [hra] at hkb
      exact absurd (Option.some_injective _ hkb) hneb
  | step ka pa la ra hka hnea hresta ih =>
    cases h2 with
    | self _ hrb =>
      rw [hrb] at hka
      exact absurd (Option.some_injective _ hka) hnea
    | step _ pb lb rb hkb hneb hrestb =>
      rw [hka] at hkb
      obtain rfl : pa = pb := Option.some_injective _ hkb
      obtain ⟨hl, hr⟩ := ih hrestb
      exact ⟨by rw [hl], hr⟩

theorem RootChain.mem_suffix {m : List (Vec × Vec)} {k : Vec} {l : List Vec} {r : Vec}
    (h : RootChain m k l r) : ∀ x ∈ l, ∃ pre l2, l = pre ++ l2 ∧ RootChain m x l2 r := by
  induction h with
  | self r1 hr1 =>
    intro x hx
    simp at hx
    subst hx
    exact ⟨[], [x], rfl, RootChain.self x hr1⟩
  | step k1 p1 l1 r1 hk1 hne1 hrest1 ih1 =>
    intro x hx
    rcases List.mem_cons.mp hx with h1 | h2
    · subst h1
      exact ⟨[], x :: l1, rfl, RootChain.step x p1 l1 r1 hk1 hne1 hrest1⟩
    · obtain ⟨pre, l2, hl, hc⟩ := ih1 x h2
      exact ⟨k1 :: pre, l2, by simp [hl], hc⟩

theorem RootChain.nodup {m : List (Vec × Vec)} {k : Vec} {l : List Vec} {r : Vec}
    (h : RootChain m k l r) : l.Nodup := by
  induction h with
  | self r1 hr1 => simp
  | step k1 p1 l1 r1 hk1 hne1 hrest1 ih1 =>
    refine List.nodup_cons.mpr ⟨?_, ih1⟩
    intro hmem
    obtain ⟨pre, l2, hl, hc⟩ := hrest1.mem_suffix k1 hmem
    have hfull : RootChain m k1 (k1 :: l1) r1 := RootChain.step k1 p1 l1 r1 hk1 hne1 hrest1
    obtain ⟨hll, _⟩ := hc.unique hfull
    subst hll
    have hlen := congrArg List.length hl
    simp [List.length_append] at hlen
    omega

theorem RootChain.length_le {m : List (Vec × Vec)} {k : Vec} {l : List Vec} {r : Vec}
    (h : RootChain m k l r) : l.length ≤ m.length := by
  have hsub : ∀ x ∈ l, x ∈ m.map Prod.fst := by
    intro x hx
    obtain ⟨p, hp⟩ := h.mem_look x hx
    exact look_some_mem_keys hp
  have hnd : l.Nodup := h.nodup
  have h1 : l.toFinset.card = l.length := List.toFinset_card_of_nodup hnd
  have h2 : l.toFinset ⊆ (m.map Prod.fst).toFinset := by
    intro x hx
    rw [List.mem_toFinset] at hx ⊢
    exact hsub x hx
  have h3 : (m.map Prod.fst).toFinset.card ≤ (m.map Prod.fst).length :=
    List.toFinset_card_le _
  have h4 := Finset.card_le_card h2
  simp at h3
  omega

theorem chase_of_chain {m : List (Vec × Vec)} {c : Vec} {l : List Vec} {r : Vec}
    (h : RootChain m c l r) : ∀ q, q ≠ c → chase m l.length q c = some r := by
  induction h with
  | self r hr =>
    intro q hq
    simp only [List.length_singleton, chase, if_neg hq, hr]
    simp [chase]
  | step k p l r hk hne hrest ih =>
    intro q hq
    simp only [List.length_cons, chase, if_neg hq, hk]
    exact ih k hne

theorem chase_mono {m : List (Vec × Vec)} {r : Vec} :
    ∀ (f : Nat) (q c : Vec), chase m f q c = some r → chase m (f + 1) q c = some r := by
  intro f
  induction f with
  | zero =>
    intro q c h
    simp only [chase] at h
    by_cases hqc : q = c
    · simp only [chase, if_pos hqc]
      simpa [hqc] using h
    · simp [hqc] at h
  | succ n ih =>
    intro q c h
    simp only [chase] at h ⊢
    by_cases hqc : q = c
    · simpa [hqc] using h
    · simp only [if_neg hqc] at h ⊢
      cases hl : look m c with
      | none => simp [hl] at h
      | some nxt =>
        simp only [hl] at h ⊢
        exact ih c nxt h

theorem chase_le {m : List (Vec × Vec)} {r : Vec} {f1 f2 : Nat} {q c : Vec}
    (hle : f1 ≤ f2) (h : chase m f1 q c = some r) : chase m f2 q c = some r := by
  induction f2 with
  | zero =>
    have : f1 = 0 := Nat.le_zero.mp hle
    exact this ▸ h
  | succ n ih =>
    by_cases hf : f1 = n + 1
    · exact hf ▸ h
    · have : f1 ≤ n := by omega
      exact chase_mono n q c (ih this)

theorem getCanon_of_chain {m : List (Vec × Vec)} {vec : Vec} {l : List Vec} {r : Vec}
    (h : RootChain m vec l r) : get_canonical_vec m vec = some (r, alSet m vec r) := by
  cases h
  case self h1 =>
    unfold get_canonical_vec
    rw [h1]
    simp [chase]
  case step p l1 h1 h2 h3 =>
    have hc : chase m l1.length vec p = some r := chase_of_chain h3 vec h2
    have hb : l1.length ≤ m.length + 1 := by
      have := (RootChain.step vec p l1 r h1 h2 h3).length_le
      simp at this
      omega
    unfold get_canonical_vec
    rw [h1]
    simp [chase_le hb hc]

theorem chase_to_chain {m : List (Vec × Vec)} {r : Vec} :
    ∀ (f : Nat) (prev curr : Vec), look m prev = some curr →
      chase m f prev curr = some r → ∃ l, RootChain m prev l r := by
  intro f
  induction f with
  | zero =>
    intro prev curr hl h
    simp only [chase] at h
    by_cases hpc : prev = curr
    · subst hpc
      simp at h
      subst h
      exact ⟨[prev], RootChain.self prev hl⟩
    · simp [hpc] at h
  | succ n ih =>
    intro prev curr hl h
    simp only [chase] at h
    by_cases hpc : prev = curr
    · subst hpc
      simp at h
      subst h
      exact ⟨[prev], RootChain.self prev hl⟩
    · simp only [if_neg hpc] at h
      cases hcl : look m curr with
      | none => simp [hcl] at h
      | some nxt =>
        simp only [hcl] at h
        obtain ⟨l, hc⟩ := ih curr nxt hcl h
        exact ⟨prev :: l, RootChain.step prev curr l r hl hpc hc⟩

theorem getCanon_inversion {m : List (Vec × Vec)} {v r : Vec} {m2 : List (Vec × Vec)}
    (h : get_canonical_vec m v = some (r, m2)) :
    (look m v = none ∧ r = v ∧ m2 = alSet m v v) ∨
      (∃ l, RootChain m v l r ∧ m2 = alSet m v r) := by
  unfold get_canonical_vec at h
  cases hl : look m v with
  | none =>
    simp [hl] at h
    exact Or.inl ⟨rfl, h.1.symm, h.2.symm⟩
  | some c =>
    simp only [hl] at h
    cases hc : chase m (m.length + 1) v c with
    | none => simp [hc] at h
    | some root =>
      simp [hc] at h
      obtain ⟨hr, hm⟩ := h
      subst hr
      obtain ⟨l, hchain⟩ := chase_to_chain (m.length + 1) v c hl hc
      exact Or.inr ⟨l, hchain, hm.symm⟩

/-- Transport of a root chain along pointwise-equal lookups on its nodes. -/
theorem RootChain.transport {m m2 : List (Vec × Vec)} {k : Vec} {l : List Vec} {r : Vec}
    (h : RootChain m k l r) (heq : ∀ x ∈ l, look m2 x = look m x) :
    RootChain m2 k l r := by
  induction h with
  | self r hr =>
    exact RootChain.self r (by rw [heq r (by simp), hr])
  | step k p l r hk hne hrest ih =>
    refine RootChain.step k p l r ?_ hne (ih ?_)
    · rw [heq k (by simp), hk]
    · intro x hx
      exact heq x (by simp [hx])

/-- Redirecting a root a onto another root t extends every chain that ended at
a so that it now ends at t. -/
theorem RootChain.redirect_hit {m : List (Vec × Vec)} {k : Vec} {l : List Vec} {a t : Vec}
    (h : RootChain m k l a) : look m t = some t → a ≠ t →
    RootChain (alSet m a t) k (l ++ [t]) t := by
  induction h with
  | self r1 hr1 =>
    intro ht hat
    refine RootChain.step r1 t [t] t ?_ hat ?_
    · rw [look_alSet]
      simp
    · refine RootChain.self t ?_
      rw [look_alSet, if_neg (fun h => hat h.symm), ht]
  | step k1 p1 l1 r1 hk1 hne1 hrest1 ih1 =>
    intro ht hat
    have hka : k1 ≠ r1 := by
      intro hkr
      rw [hkr, hrest1.root_look] at hk1
      exact hne1 (hkr.trans (Option.some_injective _ hk1))
    refine RootChain.step k1 p1 (l1 ++ [t]) t ?_ hne1 (ih1 ht hat)
    rw [look_alSet, if_neg hka, hk1]

/-- Redirecting a root a elsewhere leaves chains that end at a different root
untouched. -/
theorem RootChain.redirect_miss {m : List (Vec × Vec)} {k : Vec} {l : List Vec} {r a t : Vec}
    (h : RootChain m k l r) : look m a = some a → r ≠ a →
    RootChain (alSet m a t) k l r := by
  induction h with
  | self r1 hr1 =>
    intro ha hra
    refine RootChain.self r1 ?_
    rw [look_alSet, if_neg hra, hr1]
  | step k1 p1 l1 r1 hk1 hne1 hrest1 ih1 =>
    intro ha hra
    have hka : k1 ≠ a := by
      intro hka
      rw [hka, ha] at hk1
      exact hne1 (hka.trans (Option.some_injective _ hk1))
    exact RootChain.step k1 p1 l1 r1 (by rw [look_alSet, if_neg hka, hk1]) hne1 (ih1 ha hra)

/-- Re-pointing a vec at a root gives that vec a short chain to the root. -/
theorem chain_self_redirect {m : List (Vec × Vec)} {a t : Vec} (ht : look m t = some t) :
    ∃ l2, RootChain (alSet m a t) a l2 t := by
  by_cases hat : a = t
  · subst hat
    refine ⟨[a], RootChain.self a ?_⟩
    rw [look_alSet]
    simp
  · refine ⟨[a, t], RootChain.step a t [t] t ?_ hat (RootChain.self t ?_)⟩
    · rw [look_alSet]
      simp
    · rw [look_alSet, if_neg (fun h => hat h.symm), ht]

/-- Path compression (re-pointing a vec directly at its own root) preserves the
root of every chain. -/
theorem RootChain.compress_preserves {m : List (Vec × Vec)} {a : Vec} {la : List Vec} {ra : Vec}
    (hca : RootChain m a la ra) {k : Vec} {l : List Vec} {r : Vec}
    (h : RootChain m k l r) : ∃ l2, RootChain (alSet m a ra) k l2 r := by
  induction h with
  | self r1 hr1 =>
    by_cases hrv : r1 = a
    · subst hrv
      have hr2 : ra = r1 := (hca.unique (RootChain.self r1 hr1)).2
      subst hr2
      exact chain_self_redirect hca.root_look
    · exact ⟨[r1], RootChain.self r1 (by rw [look_alSet, if_neg hrv, hr1])⟩
  | step k1 p1 l1 r1 hk1 hne1 hrest1 ih1 =>
    by_cases hka : k1 = a
    · subst hka
      have hr2 : ra = r1 := (hca.unique (RootChain.step k1 p1 l1 r1 hk1 hne1 hrest1)).2
      subst hr2
      exact chain_self_redirect hca.root_look
    · obtain ⟨l2, hc2⟩ := ih1
      exact ⟨k1 :: l2, RootChain.step k1 p1 l2 r1 (by rw [look_alSet, if_neg hka, hk1]) hne1 hc2⟩

/-- A vec has a root exactly when the while loop of get_canonical_vec would
terminate on it. -/
def hasRoot (m : List (Vec × Vec)) (k : Vec) : Prop := ∃ l r, RootChain m k l r

/-- Invariant of the union-find parent map: every registered vec reaches a
self-parented root (no cycles of length greater than one, no dangling
parents). -/
def UFInv (m : List (Vec × Vec)) : Prop := ∀ k p, look m k = some p → hasRoot m k

theorem UFInv_nil : UFInv [] := by
  intro k p h
  simp [look] at h

theorem hasRoot_redirect {m : List (Vec × Vec)} {v t : Vec} (ht : look m t = some t) :
    hasRoot (alSet m v t) v := by
  obtain ⟨l2, hc⟩ := chain_self_redirect (a := v) ht
  exact ⟨l2, t, hc⟩

theorem UFInv_fresh {m : List (Vec × Vec)} {v : Vec} (hv : look m v = none)
    (hinv : UFInv m) : UFInv (alSet m v v) := by
  intro k p hkp
  by_cases hkv : k = v
  · subst hkv
    exact ⟨[k], k, RootChain.self k (by rw [look_alSet]; simp)⟩
  · rw [look_alSet, if_neg hkv] at hkp
    obtain ⟨l, r, hc⟩ := hinv k p hkp
    refine ⟨l, r, hc.transport ?_⟩
    intro x hx
    obtain ⟨q, hq⟩ := hc.mem_look x hx
    have hxv : x ≠ v := by
      intro hxv
      rw [hxv, hv] at hq
      exact Option.noConfusion hq
    rw [look_alSet, if_neg hxv]

theorem hasRoot_redirect_chain {m : List (Vec × Vec)} {v t : Vec} (ht : look m t = some t)
    {k : Vec} {l : List Vec} {r : Vec} (hc : RootChain m k l r) :
    hasRoot (alSet m v t) k := by
  induction hc with
  | self r1 hr1 =>
    by_cases hrv : r1 = v
    · exact hrv ▸ hasRoot_redirect ht
    · exact ⟨[r1], r1, RootChain.self r1 (by rw [look_alSet, if_neg hrv, hr1])⟩
  | step k1 p1 l1 r1 hk1 hne1 hrest1 ih1 =>
    by_cases hk1v : k1 = v
    · exact hk1v ▸ hasRoot_redirect ht
    · obtain ⟨l3, r3, hc3⟩ := ih1
      exact ⟨k1 :: l3, r3,
        RootChain.step k1 p1 l3 r3 (by rw [look_alSet, if_neg hk1v, hk1]) hne1 hc3⟩

theorem UFInv_redirect {m : List (Vec × Vec)} {v t : Vec} (ht : look m t = some t)
    (hinv : UFInv m) : UFInv (alSet m v t) := by
  intro k p hkp
  by_cases hkv : k = v
  · subst hkv
    exact hasRoot_redirect ht
  · rw [look_alSet, if_neg hkv] at hkp
    obtain ⟨l, r, hc⟩ := hinv k p hkp
    exact hasRoot_redirect_chain ht hc

theorem UFInv_getCanon {m : List (Vec × Vec)} {v r : Vec} {m2 : List (Vec × Vec)}
    (h : get_canonical_vec m v = some (r, m2)) (hinv : UFInv m) : UFInv m2 := by
  rcases getCanon_inversion h with ⟨hnone, _, hm2⟩ | ⟨l, hc, hm2⟩
  · exact hm2 ▸ UFInv_fresh hnone hinv
  · exact hm2 ▸ UFInv_redirect hc.root_look hinv

theorem getCanon_total {m : List (Vec × Vec)} (hinv : UFInv m) (v : Vec) :
    ∃ r m2, get_canonical_vec m v = some (r, m2) := by
  cases hl : look m v with
  | none =>
    exact ⟨v, alSet m v v, by simp [get_canonical_vec, hl]⟩
  | some p =>
    obtain ⟨l, r, hc⟩ := hinv v p hl
    exact ⟨r, alSet m v r, getCanon_of_chain hc⟩

theorem look_alSet_ne {α β : Type} [DecidableEq α] {m : List (α × β)} {k x : α} (v : β)
    (h : x ≠ k) : look (alSet m k v) x = look m x := by
  rw [look_alSet, if_neg h]

theorem look_alSet_self {α β : Type} [DecidableEq α] (m : List (α × β)) (k : α) (v : β) :
    look (alSet m k v) k = some v := by
  rw [look_alSet]
  simp

theorem getCanon_props {m : List (Vec × Vec)} {v r : Vec} {m2 : List (Vec × Vec)}
    (h : get_canonical_vec m v = some (r, m2)) :
    m2 = alSet m v r ∧ look m2 v = some r ∧ look m2 r = some r := by
  rcases getCanon_inversion h with ⟨hnone, hrv, hm2⟩ | ⟨l, hc, hm2⟩
  · refine ⟨by rw [hm2, hrv], ?_, ?_⟩
    · rw [hm2, hrv]
      exact look_alSet_self m v v
    · rw [hm2, hrv]
      exact look_alSet_self m v v
  · subst hm2
    refine ⟨rfl, look_alSet_self m v r, ?_⟩
    by_cases hvr : r = v
    · rw [hvr]
      exact look_alSet_self m v v
    · rw [look_alSet_ne r hvr]
      exact hc.root_look

/-- Chains that existed before a canonical lookup still reach the same root
afterwards (a lookup only inserts a fresh self-loop or path-compresses). -/
theorem getCanon_chain_stable {m : List (Vec × Vec)} {v r : Vec} {m2 : List (Vec × Vec)}
    (h : get_canonical_vec m v = some (r, m2))
    {k : Vec} {l : List Vec} {rk : Vec} (hc : RootChain m k l rk) :
    ∃ l2, RootChain m2 k l2 rk := by
  rcases getCanon_inversion h with ⟨hnone, hrv, hm2⟩ | ⟨lv, hcv, hm2⟩
  · subst hm2
    refine ⟨l, hc.transport ?_⟩
    intro x hx
    obtain ⟨p, hp⟩ := hc.mem_look x hx
    have hxv : x ≠ v := by
      intro hxv
      rw [hxv, hnone] at hp
      exact Option.noConfusion hp
    exact look_alSet_ne v hxv
  · subst hm2
    exact hcv.compress_preserves hc

-- ------------------------------------------------------------------
-- NestedTensorState
-- ------------------------------------------------------------------

/-- Metadata slot of the canonical-keyed metadata store: a real metadata dict
(string keys, integer facts such as sum_vec), or the invalidated sentinel
object stored for no-longer-canonical keys. -/
inductive Slot where
  | dict (d : List (String × Int))
  | invalid
deriving DecidableEq

/-- Weak-member slot: a set of weak references to member descriptors, or the
invalidated sentinel object. -/
inductive WSlot where
  | wset (s : List Vec)
  | invalid
deriving DecidableEq

/-- NestedTensorState: the process-wide registry.  uf is the UnionFind parent
map, counterNext and counterIds the TensorCounter state, metadata and weak the
two canonical-keyed stores (DefaultWeakTensorKeyDictionary with defaults dict
and set). -/
structure NTState where
  uf : List (Vec × Vec)
  counterNext : Nat
  counterIds : List (Vec × Nat)
  metadata : List (Vec × Slot)
  weak : List (Vec × WSlot)
deriving DecidableEq

/-- Freshly constructed NestedTensorState. -/
def initState : NTState := ⟨[], 0, [], [], []⟩

/-- TensorCounter.get_id: hand out the previously assigned id, or assign the
next unused integer. -/
def TensorCounter.get_id (s : NTState) (vec : Vec) : Nat × NTState :=
  match look s.counterIds vec with
  | some i => (i, s)
  | none =>
    (s.counterNext,
      { s with counterIds := alSet s.counterIds vec s.counterNext,
               counterNext := s.counterNext + 1 })

/-- DefaultWeakTensorKeyDictionary getitem with default dict(): creates and
stores a fresh empty dict when the key is absent. -/
def getDefaultM (m : List (Vec × Slot)) (k : Vec) : Slot × List (Vec × Slot) :=
  match look m k with
  | some v => (v, m)
  | none => (Slot.dict [], alSet m k (Slot.dict []))

/-- DefaultWeakTensorKeyDictionary getitem with default set(). -/
def getDefaultW (m : List (Vec × WSlot)) (k : Vec) : WSlot × List (Vec × WSlot) :=
  match look m k with
  | some v => (v, m)
  | none => (WSlot.wset [], alSet m k (WSlot.wset []))

/-- Python dict.update: entries of the argument overwrite entries of the
receiver on key collision. -/
def dictUpdate (a b : List (String × Int)) : List (String × Int) :=
  b.foldl (fun acc kv => alSet acc kv.1 kv.2) a

/-- Python set.add of one element. -/
def setInsert (s : List Vec) (x : Vec) : List Vec :=
  if x ∈ s then s else s ++ [x]

/-- Python set.update: insert every element of the second set into the
first. -/
def setUpdate (a b : List Vec) : List Vec :=
  b.foldl setInsert a

/-- NestedTensorState.merge, transcribed step by step.  The call into the cpp
union-find is external and carries no state modelled here; the print calls
are I/O only.  Returning none models an uncaught exception: a canonical
lookup that never terminates, or calling update on the invalidated sentinel
object. -/
def NTState.merge (s : NTState) (src tgt : Vec) : Option NTState :=
  if src = tgt then some s
  else
    match get_canonical_vec s.uf src with
    | none => none
    | some (csrc, uf1) =>
      match get_canonical_vec uf1 tgt with
      | none => none
      | some (ctgt, uf2) =>
        match UnionFind.merge uf2 src tgt with
        | none => none
        | some uf3 =>
          let s1 : NTState := { s with uf := uf3 }
          let s2 := (TensorCounter.get_id s1 src).2
          let s3 := (TensorCounter.get_id s2 tgt).2
          let p1 := getDefaultM s3.metadata csrc
          let p2 := getDefaultM p1.2 ctgt
          match p1.1, p2.1 with
          | Slot.dict da, Slot.dict db =>
            let merged := dictUpdate da db
            let md3 := alSet p2.2 csrc (Slot.dict merged)
            let md4 := alSet md3 ctgt (Slot.dict merged)
            let md5 := alSet md4 csrc Slot.invalid
            let q1 := getDefaultW s3.weak ctgt
            let q2 := getDefaultW q1.2 csrc
            match q1.1, q2.1 with
            | WSlot.wset st, WSlot.wset ss =>
              let w3 := alSet q2.2 ctgt (WSlot.wset (setUpdate st ss))
              let w4 := alSet w3 csrc WSlot.invalid
              some { s3 with metadata := md5, weak := w4 }
            | _, _ => none
          | _, _ => none

/-- NestedTensorState.get_metadata: resolve canonical, default-create the
slot, and assert that the resolved slot is not the invalidated sentinel.  The
returned canonical key models the identity of the returned dict object (a
mutation of the returned dict is a mutation of that slot).  none models the
assertion failing, or the canonical lookup not terminating. -/
def NTState.get_metadata (s : NTState) (vec : Vec) :
    Option ((Vec × List (String × Int)) × NTState) :=
  match get_canonical_vec s.uf vec with
  | none => none
  | some (c, uf2) =>
    let p := getDefaultM s.metadata c
    match p.1 with
    | Slot.invalid => none
    | Slot.dict d => some ((c, d), { s with uf := uf2, metadata := p.2 })

/-- NestedTensorState.get_equivalent_vecs: resolve canonical and yield every
member of the weak set that is still live (live models the set of descriptor
identities not yet garbage collected; a dead weak reference dereferences to
None and is skipped).  none models iterating over the invalidated sentinel
object. -/
def NTState.get_equivalent_vecs (s : NTState) (live : List Vec) (vec : Vec) :
    Option (List Vec × NTState) :=
  match get_canonical_vec s.uf vec with
  | none => none
  | some (c, uf2) =>
    let p := getDefaultW s.weak c
    match p.1 with
    | WSlot.invalid => none
    | WSlot.wset ws =>
      some (ws.filter (fun x => decide (x ∈ live)), { s with uf := uf2, weak := p.2 })

/-- Modelled from the spec: registration of a member descriptor into its
equivalence class's weak-member set.  The code that populates the
weak-member store (_weak_tensors) is not under src: within
nested_tensor.py only merge and get_equivalent_vecs touch the store and the
module-level import of weakref is otherwise unused.  The spec (sections 3 and
4.4) describes the store as mapping each canonical descriptor to a set of
weak back-references to every live member descriptor of the class; this
operation adds one such back-reference under the member's canonical key. -/
def NTState.register_member (s : NTState) (vec : Vec) : Option NTState :=
  match get_canonical_vec s.uf vec with
  | none => none
  | some (c, uf2) =>
    let p := getDefaultW s.weak c
    match p.1 with
    | WSlot.invalid => none
    | WSlot.wset ws =>
      some { s with uf := uf2, weak := alSet p.2 c (WSlot.wset (setInsert ws vec)) }

/-- Assertion loop of validate_invariants over the metadata store, exactly as
the source writes it: for each entry, assert that (canonical(vec) is vec) is
EQUAL to (value is the invalidated sentinel); stop at the first failing
assertion (result false).  Threads the union-find map, which the canonical
lookups mutate. -/
def checkMetaItems (uf : List (Vec × Vec)) :
    List (Vec × Slot) → Option (Bool × List (Vec × Vec))
  | [] => some (true, uf)
  | (v, val) :: rest =>
    match get_canonical_vec uf v with
    | none => none
    | some (r, uf2) =>
      if (r = v) ↔ (val = Slot.invalid) then checkMetaItems uf2 rest
      else some (false, uf2)

/-- Assertion loop of validate_invariants over the weak-member store. -/
def checkWeakItems (uf : List (Vec × Vec)) :
    List (Vec × WSlot) → Option (Bool × List (Vec × Vec))
  | [] => some (true, uf)
  | (v, val) :: rest =>
    match get_canonical_vec uf v with
    | none => none
    | some (r, uf2) =>
      if (r = v) ↔ (val = WSlot.invalid) then checkWeakItems uf2 rest
      else some (false, uf2)

/-- NestedTensorState.validate_invariants as the source writes it: some true
when every assertion passes, some false when an assertion fails
(AssertionError), none when a canonical lookup does not terminate. -/
def NTState.validate_invariants (s : NTState) : Option Bool :=
  match checkMetaItems s.uf s.metadata with
  | none => none
  | some (false, _) => some false
  | some (true, uf2) =>
    match checkWeakItems uf2 s.weak with
    | none => none
    | some (b, _) => some b

/-- Modelled from the spec: the check validate_invariants is documented to
perform (spec section 4.4 and the surrounding comments in the source): for
every descriptor in the store, being canonical is equivalent to the slot NOT
being the invalidated sentinel.  Stated only to compare against the source's
validate_invariants. -/
def checkMetaItemsSpec (uf : List (Vec × Vec)) :
    List (Vec × Slot) → Option (Bool × List (Vec × Vec))
  | [] => some (true, uf)
  | (v, val) :: rest =>
    match get_canonical_vec uf v with
    | none => none
    | some (r, uf2) =>
      if (r = v) ↔ ¬(val = Slot.invalid) then checkMetaItemsSpec uf2 rest
      else some (false, uf2)

/-- Modelled from the spec: weak-store half of the documented invariant
check. -/
def checkWeakItemsSpec (uf : List (Vec × Vec)) :
    List (Vec × WSlot) → Option (Bool × List (Vec × Vec))
  | [] => some (true, uf)
  | (v, val) :: rest =>
    match get_canonical_vec uf v with
    | none => none
    | some (r, uf2) =>
      if (r = v) ↔ ¬(val = WSlot.invalid) then checkWeakItemsSpec uf2 rest
      else some (false, uf2)

/-- Modelled from the spec: the whole documented invariant check, for
comparison with the source's validate_invariants. -/
def NTState.validate_invariants_spec (s : NTState) : Option Bool :=
  match checkMetaItemsSpec s.uf s.metadata with
  | none => none
  | some (false, _) => some false
  | some (true, uf2) =>
    match checkWeakItemsSpec uf2 s.weak with
    | none => none
    | some (b, _) => some b

-- ------------------------------------------------------------------
-- Evaluation lemmas for the registry operations
-- ------------------------------------------------------------------

/-- Dict payload of a metadata store lookup result (empty dict for an absent
slot, matching the default-dict store). -/
def mdict : Option Slot → List (String × Int)
  | some (Slot.dict d) => d
  | _ => []

/-- Weak-set payload of a weak store lookup result. -/
def wser : Option WSlot → List Vec
  | some (WSlot.wset s) => s
  | _ => []

theorem UnionFind.merge_eval {uf2 : List (Vec × Vec)} {a b ra rb : Vec}
    (ha : look uf2 a = some ra) (hb : look uf2 b = some rb)
    (hrb : look uf2 rb = some rb) :
    UnionFind.merge uf2 a b = some (alSet uf2 ra rb) := by
  unfold UnionFind.merge
  simp [ha, hb, hrb]

theorem getDefaultM_fst {m : List (Vec × Slot)} {k : Vec}
    (h : look m k ≠ some Slot.invalid) :
    (getDefaultM m k).1 = Slot.dict (mdict (look m k)) := by
  unfold getDefaultM
  cases hl : look m k with
  | none => simp [mdict]
  | some sl =>
    cases sl with
    | dict d => simp [mdict]
    | invalid => exact absurd hl h

theorem getDefaultM_snd_look {m : List (Vec × Slot)} (k x : Vec) :
    look (getDefaultM m k).2 x =
      if x = k then
        some ((getDefaultM m k).1)
      else look m x := by
  unfold getDefaultM
  cases hl : look m k with
  | none =>
    by_cases hx : x = k
    · subst hx
      simp [look_alSet_self]
    · simp [look_alSet_ne _ hx, hx]
  | some sl =>
    by_cases hx : x = k
    · subst hx
      simp [hl]
    · simp [hx]

theorem getDefaultW_fst {m : List (Vec × WSlot)} {k : Vec}
    (h : look m k ≠ some WSlot.invalid) :
    (getDefaultW m k).1 = WSlot.wset (wser (look m k)) := by
  unfold getDefaultW
  cases hl : look m k with
  | none => simp [wser]
  | some sl =>
    cases sl with
    | wset d => simp [wser]
    | invalid => exact absurd hl h

theorem getDefaultW_snd_look {m : List (Vec × WSlot)} (k x : Vec) :
    look (getDefaultW m k).2 x =
      if x = k then
        some ((getDefaultW m k).1)
      else look m x := by
  unfold getDefaultW
  cases hl : look m k with
  | none =>
    by_cases hx : x = k
    · subst hx
      simp [look_alSet_self]
    · simp [look_alSet_ne _ hx, hx]
  | some sl =>
    by_cases hx : x = k
    · subst hx
      simp [hl]
    · simp [hx]

theorem get_id_snd_metadata (s : NTState) (v : Vec) :
    (TensorCounter.get_id s v).2.metadata = s.metadata := by
  unfold TensorCounter.get_id
  cases look s.counterIds v <;> simp

theorem get_id_snd_weak (s : NTState) (v : Vec) :
    (TensorCounter.get_id s v).2.weak = s.weak := by
  unfold TensorCounter.get_id
  cases look s.counterIds v <;> simp

theorem get_id_snd_uf (s : NTState) (v : Vec) :
    (TensorCounter.get_id s v).2.uf = s.uf := by
  unfold TensorCounter.get_id
  cases look s.counterIds v <;> simp

theorem get_id_registers (s : NTState) (v : Vec) :
    ∃ i, look (TensorCounter.get_id s v).2.counterIds v = some i := by
  unfold TensorCounter.get_id
  cases hl : look s.counterIds v with
  | none => exact ⟨s.counterNext, by simp [look_alSet_self]⟩
  | some i => exact ⟨i, by simpa using hl⟩

/-- Full characterization of NestedTensorState.merge when the two arguments
canonicalize to distinct roots: the union-find re-points ra at rb, the merged
dict (tgt entries overwriting src entries) lives under rb, ra's slot holds the
sentinel, the merged weak set lives under rb, and all other slots are
untouched. -/
theorem NTState.merge_spec (s : NTState) {a b ra rb : Vec} {uf1 uf2 : List (Vec × Vec)}
    (hab : a ≠ b)
    (hca : get_canonical_vec s.uf a = some (ra, uf1))
    (hcb : get_canonical_vec uf1 b = some (rb, uf2))
    (hrarb : ra ≠ rb)
    (hma : look s.metadata ra ≠ some Slot.invalid)
    (hmb : look s.metadata rb ≠ some Slot.invalid)
    (hwa : look s.weak ra ≠ some WSlot.invalid)
    (hwb : look s.weak rb ≠ some WSlot.invalid) :
    ∃ s2, NTState.merge s a b = some s2 ∧
      s2.uf = alSet uf2 ra rb ∧
      look s2.metadata ra = some Slot.invalid ∧
      look s2.metadata rb =
        some (Slot.dict (dictUpdate (mdict (look s.metadata ra)) (mdict (look s.metadata rb)))) ∧
      (∀ k, k ≠ ra → k ≠ rb → look s2.metadata k = look s.metadata k) ∧
      look s2.weak ra = some WSlot.invalid ∧
      look s2.weak rb =
        some (WSlot.wset (setUpdate (wser (look s.weak rb)) (wser (look s.weak ra)))) ∧
      (∀ k, k ≠ ra → k ≠ rb → look s2.weak k = look s.weak k) := by
  obtain ⟨huf1, hua, hura⟩ := getCanon_props hca
  obtain ⟨huf2, hub, hurb⟩ := getCanon_props hcb
  have hua2 : look uf2 a = some ra := by
    rw [huf2, look_alSet_ne _ hab]
    exact hua
  have hmerge : UnionFind.merge uf2 a b = some (alSet uf2 ra rb) :=
    UnionFind.merge_eval hua2 hub hurb
  have hbra : rb ≠ ra := fun h => hrarb h.symm
  have hp1fst : (getDefaultM s.metadata ra).1 = Slot.dict (mdict (look s.metadata ra)) :=
    getDefaultM_fst hma
  have hp1rb : look (getDefaultM s.metadata ra).2 rb = look s.metadata rb := by
    rw [getDefaultM_snd_look, if_neg hbra]
  have hp2fst : (getDefaultM (getDefaultM s.metadata ra).2 rb).1 =
      Slot.dict (mdict (look s.metadata rb)) := by
    rw [getDefaultM_fst (by rw [hp1rb]; exact hmb), hp1rb]
  have hq1fst : (getDefaultW s.weak rb).1 = WSlot.wset (wser (look s.weak rb)) :=
    getDefaultW_fst hwb
  have hq1ra : look (getDefaultW s.weak rb).2 ra = look s.weak ra := by
    rw [getDefaultW_snd_look, if_neg hrarb]
  have hq2fst : (getDefaultW (getDefaultW s.weak rb).2 ra).1 =
      WSlot.wset (wser (look s.weak ra)) := by
    rw [getDefaultW_fst (by rw [hq1ra]; exact hwa), hq1ra]
  refine ⟨{ (TensorCounter.get_id (TensorCounter.get_id { s with uf := alSet uf2 ra rb } a).2
        b).2 with
      metadata := alSet (alSet (alSet (getDefaultM (getDefaultM s.metadata ra).2 rb).2 ra
          (Slot.dict (dictUpdate (mdict (look s.metadata ra)) (mdict (look s.metadata rb))))) rb
          (Slot.dict (dictUpdate (mdict (look s.metadata ra)) (mdict (look s.metadata rb)))))
          ra Slot.invalid,
      weak := alSet (alSet (getDefaultW (getDefaultW s.weak rb).2 ra).2 rb
          (WSlot.wset (setUpdate (wser (look s.weak rb)) (wser (look s.weak ra)))))
          ra WSlot.invalid },
    ?_, ?_, ?_, ?_, ?_, ?_, ?_, ?_⟩
  · simp only [NTState.merge, if_neg hab, hca, hcb, hmerge, get_id_snd_metadata,
      get_id_snd_weak, hp1fst, hp2fst, hq1fst, hq2fst]
  · simp only [get_id_snd_uf]
  · dsimp only
    rw [look_alSet_self]
  · dsimp only
    rw [look_alSet_ne _ hbra, look_alSet_self]
  · intro k hkra hkrb
    dsimp only
    rw [look_alSet_ne _ hkra, look_alSet_ne _ hkrb, look_alSet_ne _ hkra,
      getDefaultM_snd_look, if_neg hkrb, getDefaultM_snd_look, if_neg hkra]
  · dsimp only
    rw [look_alSet_self]
  · dsimp only
    rw [look_alSet_ne _ hbra, look_alSet_self]
  · intro k hkra hkrb
    dsimp only
    rw [look_alSet_ne _ hkra, look_alSet_ne _ hkrb,
      getDefaultW_snd_look, if_neg hkra, getDefaultW_snd_look, if_neg hkrb]

/-- Totality and canonical-equality of NestedTensorState.merge under the
registry invariants: the merge returns some state, the union-find invariant
is preserved (so no later canonical lookup can loop forever), both arguments
afterwards canonicalize to one common root, and every canonical lookup in the
post state terminates. -/
theorem NTState.merge_total (s : NTState) (a b : Vec)
    (hinv : UFInv s.uf)
    (hmi : ∀ k, look s.metadata k = some Slot.invalid → ∃ p, look s.uf k = some p ∧ p ≠ k)
    (hwi : ∀ k, look s.weak k = some WSlot.invalid → ∃ p, look s.uf k = some p ∧ p ≠ k) :
    ∃ s2, NTState.merge s a b = some s2 ∧ UFInv s2.uf ∧
      (∃ r m2 m3, get_canonical_vec s2.uf a = some (r, m2) ∧
        get_canonical_vec s2.uf b = some (r, m3)) ∧
      (∀ v, ∃ r2 m2, get_canonical_vec s2.uf v = some (r2, m2)) := by
  by_cases hab : a = b
  · subst hab
    refine ⟨s, by simp [NTState.merge], hinv, ?_, fun v => ?_⟩
    · obtain ⟨r, m2, h⟩ := getCanon_total hinv a
      exact ⟨r, m2, m2, h, h⟩
    · obtain ⟨r2, m2, h⟩ := getCanon_total hinv v
      exact ⟨r2, m2, h⟩
  · obtain ⟨ra, uf1, hca⟩ := getCanon_total hinv a
    have hinv1 : UFInv uf1 := UFInv_getCanon hca hinv
    obtain ⟨rb, uf2, hcb⟩ := getCanon_total hinv1 b
    have hinv2 : UFInv uf2 := UFInv_getCanon hcb hinv1
    obtain ⟨huf1, hua, hura⟩ := getCanon_props hca
    obtain ⟨huf2, hub, hurb⟩ := getCanon_props hcb
    have hua2 : look uf2 a = some ra := by
      rw [huf2, look_alSet_ne _ hab]
      exact hua
    have hura2 : look uf2 ra = some ra := by
      rw [huf2]
      by_cases hrab : ra = b
      · have hbroot : RootChain uf1 b [b] b := RootChain.self b (hrab ▸ hura)
        have heq := getCanon_of_chain hbroot
        rw [hcb] at heq
        have hrbb : rb = b := by
          have := Option.some_injective _ heq
          exact (Prod.mk.injEq _ _ _ _ ▸ this).1
        rw [hrab, hrbb, look_alSet_self]
      · rw [look_alSet_ne _ hrab]
        exact hura
    have hranice : look s.uf ra = some ra ∨ look s.uf ra = none := by
      rcases getCanon_inversion hca with ⟨hnone, hrv, _⟩ | ⟨l, hc, _⟩
      · right
        rw [hrv]
        exact hnone
      · left
        exact hc.root_look
    have hrbnice : look s.uf rb = some rb ∨ look s.uf rb = none ∨ rb = ra := by
      rcases getCanon_inversion hcb with ⟨hnone, hrv, _⟩ | ⟨l, hc, _⟩
      · subst hrv
        rw [huf1] at hnone
        by_cases hba : rb = a
        · rw [look_alSet, if_pos hba] at hnone
          exact Option.noConfusion hnone
        · rw [look_alSet_ne _ hba] at hnone
          exact Or.inr (Or.inl hnone)
      · have h1 := hc.root_look
        rw [huf1] at h1
        by_cases hba : rb = a
        · rw [look_alSet, if_pos hba] at h1
          exact Or.inr (Or.inr (Option.some_injective _ h1).symm)
        · rw [look_alSet_ne _ hba] at h1
          exact Or.inl h1
    have notbad : ∀ {β : Type} (store : List (Vec × β)) (inval : β),
        (∀ k, look store k = some inval → ∃ p, look s.uf k = some p ∧ p ≠ k) →
        look store ra ≠ some inval ∧ look store rb ≠ some inval := by
      intro β store inval hst
      have hnot_ra : look store ra ≠ some inval := by
        intro hbad
        obtain ⟨p, hp, hpne⟩ := hst ra hbad
        rcases hranice with h | h
        · rw [h] at hp
          exact hpne (Option.some_injective _ hp).symm
        · rw [h] at hp
          exact Option.noConfusion hp
      refine ⟨hnot_ra, ?_⟩
      intro hbad
      obtain ⟨p, hp, hpne⟩ := hst rb hbad
      rcases hrbnice with h | h | h
      · rw [h] at hp
        exact hpne (Option.some_injective _ hp).symm
      · rw [h] at hp
        exact Option.noConfusion hp
      · rw [h] at hbad
        exact hnot_ra hbad
    obtain ⟨hmra, hmrb⟩ := notbad s.metadata Slot.invalid hmi
    obtain ⟨hwra, hwrb⟩ := notbad s.weak WSlot.invalid hwi
    have hp1 : (getDefaultM s.metadata ra).1 = Slot.dict (mdict (look s.metadata ra)) :=
      getDefaultM_fst hmra
    have hp2cond : look (getDefaultM s.metadata ra).2 rb ≠ some Slot.invalid := by
      rw [getDefaultM_snd_look]
      by_cases h : rb = ra
      · rw [if_pos h, hp1]
        simp
      · rw [if_neg h]
        exact hmrb
    have hp2 := getDefaultM_fst hp2cond
    have hq1 : (getDefaultW s.weak rb).1 = WSlot.wset (wser (look s.weak rb)) :=
      getDefaultW_fst hwrb
    have hq2cond : look (getDefaultW s.weak rb).2 ra ≠ some WSlot.invalid := by
      rw [getDefaultW_snd_look]
      by_cases h : ra = rb
      · rw [if_pos h, hq1]
        simp
      · rw [if_neg h]
        exact hwra
    have hq2 := getDefaultW_fst hq2cond
    have hmerge : UnionFind.merge uf2 a b = some (alSet uf2 ra rb) :=
      UnionFind.merge_eval hua2 hub hurb
    obtain ⟨s2, hev⟩ : ∃ s2, NTState.merge s a b = some s2 := by
      simp only [NTState.merge, if_neg hab, hca, hcb, hmerge, get_id_snd_metadata,
        get_id_snd_weak, hp1, hp2, hq1, hq2]
      exact ⟨_, rfl⟩
    have hufeq : s2.uf = alSet uf2 ra rb := by
      have h := hev
      simp only [NTState.merge, if_neg hab, hca, hcb, hmerge, get_id_snd_metadata,
        get_id_snd_weak, hp1, hp2, hq1, hq2] at h
      have h2 := congrArg (fun o => Option.map NTState.uf o) h
      simp [get_id_snd_uf] at h2
      exact h2.symm
    have hchaina : ∃ la, RootChain uf2 a la ra := by
      by_cases hara : a = ra
      · refine ⟨[a], ?_⟩
        have : look uf2 a = some a := by rw [hua2, hara]
        exact hara ▸ RootChain.self a this
      · exact ⟨[a, ra], RootChain.step a ra [ra] ra hua2 hara (RootChain.self ra hura2)⟩
    have hchainb : ∃ lb, RootChain uf2 b lb rb := by
      by_cases hbrb : b = rb
      · refine ⟨[b], ?_⟩
        have : look uf2 b = some b := by rw [hub, hbrb]
        exact hbrb ▸ RootChain.self b this
      · exact ⟨[b, rb], RootChain.step b rb [rb] rb hub hbrb (RootChain.self rb hurb)⟩
    obtain ⟨la, hla⟩ := hchaina
    obtain ⟨lb, hlb⟩ := hchainb
    have hinv3 : UFInv (alSet uf2 ra rb) := UFInv_redirect hurb hinv2
    have hpost : ∃ la2 lb2, RootChain (alSet uf2 ra rb) a la2 rb ∧
        RootChain (alSet uf2 ra rb) b lb2 rb := by
      by_cases hrr : ra = rb
      · subst hrr
        have hpt : ∀ x, look (alSet uf2 ra ra) x = look uf2 x := by
          intro x
          rw [look_alSet]
          by_cases hx : x = ra
          · rw [if_pos hx, hx, hura2]
          · rw [if_neg hx]
        refine ⟨la, lb, ?_, ?_⟩
        · exact hla.transport (fun x _ => hpt x)
        · exact hlb.transport (fun x _ => hpt x)
      · refine ⟨la ++ [rb], lb, hla.redirect_hit hurb hrr, ?_⟩
        exact hlb.redirect_miss hura2 (fun h => hrr h.symm)
    obtain ⟨la2, lb2, hpa, hpb⟩ := hpost
    refine ⟨s2, hev, hufeq ▸ hinv3,
      ⟨rb, alSet s2.uf a rb, alSet s2.uf b rb, ?_, ?_⟩, fun v => ?_⟩
    · rw [hufeq]
      exact getCanon_of_chain hpa
    · rw [hufeq]
      exact getCanon_of_chain hpb
    · obtain ⟨r2, m2, h⟩ := getCanon_total (hufeq ▸ hinv3) v
      exact ⟨r2, m2, h⟩

-- ------------------------------------------------------------------
-- Tensors and NestedTensor
-- ------------------------------------------------------------------

/-- Runtime class of a tensor object: plain dense tensor, FakeTensor, or
FunctionalTensor (the latter two are the symbolic/traced categories tested
with isinstance). -/
inductive TKind where
  | plain
  | fake
  | functional
deriving DecidableEq

/-- Element dtype tag; only identity of the tag matters to the modelled
checks. -/
inductive DType where
  | int64
  | float32
  | other (code : Nat)
deriving DecidableEq

/-- Tensor, restricted to the fields this file reads: object identity (the
registry is identity-keyed), runtime class, dtype and device tags, shape,
strides, flat element data, and the autograd flag. -/
structure Tensor where
  oid : Vec
  kind : TKind
  dtype : DType
  device : Nat
  shape : List Nat
  strides : List Nat
  data : List Int
  requires_grad : Bool
deriving DecidableEq

instance : Inhabited Tensor := ⟨⟨0, TKind.plain, DType.int64, 0, [], [], [], false⟩⟩

/-- Tensor.detach: same storage, autograd tracking off.  The detached object
identity is never used as a registry key by this file (only offsets and
lengths descriptors are), so the identity is kept. -/
def Tensor.detach (t : Tensor) : Tensor := { t with requires_grad := false }

/-- Symbolic nested int handle: viaId is the result of a constructor called
with (TensorCounter id, vec); external is the handle produced by a
fake/functional vec's own cached factory.  The handle records the vec it was
created from (nested_int_vec in the source). -/
inductive NInt where
  | viaId (i : Nat) (vec : Vec) (vkind : TKind)
  | external (vec : Vec) (vkind : TKind)
deriving DecidableEq

/-- Vec object recorded in a nested int (node.nested_int_vec()). -/
def NInt.vec : NInt → Vec
  | NInt.viaId _ v _ => v
  | NInt.external v _ => v

/-- Runtime class of the vec recorded in a nested int. -/
def NInt.vkind : NInt → TKind
  | NInt.viaId _ _ k => k
  | NInt.external _ k => k

/-- NestedTensorState.create_nested_int: a fake/functional vec with no custom
constructor delegates to the vec's own cached nested-int factory (no id is
assigned); otherwise the constructor - custom or the default
_get_nested_int - receives (TensorCounter.get_id(vec), vec), assigning an id
as a side effect.  The custom flag records whether a ctor_fn was passed; the
claims only depend on which path runs and on the id registration. -/
def NTState.create_nested_int (s : NTState) (vec : Tensor) (custom : Bool) :
    NInt × NTState :=
  if (vec.kind = TKind.fake ∨ vec.kind = TKind.functional) ∧ ¬ custom then
    (NInt.external vec.oid vec.kind, s)
  else
    ((NInt.viaId (TensorCounter.get_id s vec.oid).1 vec.oid vec.kind),
      (TensorCounter.get_id s vec.oid).2)

/-- Entry of the derived size and stride tuples of a NestedTensor: a concrete
integer, the symbolic ragged size, or the symbolic ragged size multiplied by
a concrete stride. -/
inductive Dim where
  | cdim (n : Int)
  | sdim (v : NInt)
  | sprod (v : NInt) (n : Nat)
deriving DecidableEq

/-- NestedTensor (the JaggedArray of the spec): the fields assigned by
__new__ and __init__.  nsize and nstrides are the derived _size and _strides
tuples.  values can never itself be a NestedTensor here (the source asserts
this; the model separates the types). -/
structure NestedTensor where
  values : Tensor
  offsets : Tensor
  lengths : Option Tensor
  ragged_idx : Nat
  metadata_cache : List (String × Int)
  requires_grad : Bool
  nsize : List Dim
  nstrides : List Dim
deriving DecidableEq

/-- Python exception classes raised by the modelled code paths. -/
inductive Err where
  | assertionError
  | valueError
  | runtimeError
  | indexError
deriving DecidableEq

/-- Metadata key written by the NestedTensor constructor. -/
def sumVecKey : String := "sum_vec"

/-- Metadata-cache key for the cached maximum sequence length. -/
def maxSeqlenKey : String := "max_seqlen"

/-- Metadata-cache key for the cached minimum sequence length. -/
def minSeqlenKey : String := "min_seqlen"

/-- NestedTensor construction (__new__ plus __init__), with the registry
state threaded and returned even on failure: the constructor mutates the
registry (id assignment, union-find registration, sum_vec write) before it
validates values.requires_grad.  Statement order mirrors __init__;
mark_dynamic is an external hint sink with no modelled state.  The
metadata_cache argument uses getD [] for the kwargs.get(..) or dict()
idiom (an absent or empty cache becomes an empty dict; the value is the
same). -/
def NestedTensor.init (st : NTState) (values offsets : Tensor)
    (lengths : Option Tensor) (requires_grad : Bool) (ragged_idx : Nat)
    (metadata_cache : Option (List (String × Int))) :
    Except Err NestedTensor × NTState :=
  if offsets.shape.length ≠ 1 then (Except.error Err.assertionError, st)
  else
    let ragged_source := lengths.getD offsets
    let p := NTState.create_nested_int st ragged_source false
    match NTState.get_metadata p.2 ragged_source.oid with
    | none => (Except.error Err.assertionError, p.2)
    | some ((c, d), st2) =>
      match values.shape with
      | [] => (Except.error Err.indexError, st2)
      | v0 :: _ =>
        let st3 : NTState :=
          { st2 with
            metadata := alSet st2.metadata c (Slot.dict (alSet d sumVecKey (v0 : Int))) }
        let B : Int := (offsets.shape.headD 0 : Int) - 1
        let Ds := values.shape.take (ragged_idx - 1) ++ values.shape.drop ragged_idx
        let nested_size :=
          Dim.cdim B :: ((Ds.take (ragged_idx - 1)).map (fun n => Dim.cdim (n : Int))
            ++ Dim.sdim p.1 :: (Ds.drop (ragged_idx - 1)).map (fun n => Dim.cdim (n : Int)))
        match values.strides.get? (ragged_idx - 1) with
        | none => (Except.error Err.indexError, st3)
        | some s0 =>
          let nstrides :=
            Dim.sprod p.1 s0 :: values.strides.map (fun n => Dim.cdim (n : Int))
          if values.requires_grad then (Except.error Err.valueError, st3)
          else
            (Except.ok
              { values := values, offsets := offsets, lengths := lengths,
                ragged_idx := ragged_idx,
                metadata_cache := metadata_cache.getD [],
                requires_grad := requires_grad,
                nsize := nested_size, nstrides := nstrides }, st3)

/-- Context dict emitted by __tensor_flatten__. -/
structure FlatCtx where
  requires_grad : Bool
  metadata_cache : List (String × Int)
  ragged_idx : Nat
deriving DecidableEq

/-- NestedTensor.__tensor_flatten__: the inner tensors (lengths included only
when present) and the context. -/
def NestedTensor.tensor_flatten (nt : NestedTensor) :
    (Tensor × Tensor × Option Tensor) × FlatCtx :=
  ((nt.values, nt.offsets, nt.lengths),
    ⟨nt.requires_grad, nt.metadata_cache, nt.ragged_idx⟩)

/-- NestedTensor.__tensor_unflatten__: for a fake or functional vec, first
re-register the vec with a custom constructor derived from the old nested int
found at outer_size[ragged_idx], and merge the vec with the old nested int's
vec when their runtime types agree; in every case, reconstruct the
NestedTensor from the inner tensors and the context. -/
def NestedTensor.tensor_unflatten (st : NTState)
    (inner : Tensor × Tensor × Option Tensor) (meta : FlatCtx)
    (outer_size : List Dim) : Except Err NestedTensor × NTState :=
  let values := inner.1
  let offsets := inner.2.1
  let lengths := inner.2.2
  let vec := lengths.getD offsets
  if vec.kind = TKind.fake ∨ vec.kind = TKind.functional then
    match outer_size.get? meta.ragged_idx with
    | some (Dim.sdim old_ni) =>
      let st2 := (NTState.create_nested_int st vec true).2
      if vec.kind = old_ni.vkind then
        match NTState.merge st2 vec.oid old_ni.vec with
        | none => (Except.error Err.assertionError, st2)
        | some st3 =>
          NestedTensor.init st3 values offsets lengths meta.requires_grad
            meta.ragged_idx (some meta.metadata_cache)
      else
        NestedTensor.init st2 values offsets lengths meta.requires_grad
          meta.ragged_idx (some meta.metadata_cache)
    | _ => (Except.error Err.assertionError, st)
  else
    NestedTensor.init st values offsets lengths meta.requires_grad
      meta.ragged_idx (some meta.metadata_cache)

/-- Contiguous strides of a given shape (torch.cat output is contiguous). -/
def contigStrides : List Nat → List Nat
  | [] => []
  | _ :: rest => rest.foldr (fun a b => a * b) 1 :: contigStrides rest

/-- Running total of torch.cumsum along a flat integer list. -/
def cumsumAux (acc : Int) : List Int → List Int
  | [] => []
  | x :: rest => (acc + x) :: cumsumAux (acc + x) rest

/-- Inclusive prefix sums, as tensor(..).cumsum(dim=0) produces. -/
def cumsum (l : List Int) : List Int := cumsumAux 0 l

/-- torch.cat(tensors, dim=0): total row count in front, trailing dims of the
first tensor, concatenated data.  Callers reach this only with a nonempty
list (the dtype check rejects an empty list first), so the Inhabited default
is unreachable. -/
def cat0 (ts : List Tensor) (oid : Vec) : Tensor :=
  let shape := ts.foldl (fun acc t => acc + t.shape.headD 0) 0 ::
    (ts.headD default).shape.drop 1
  { oid := oid, kind := TKind.plain,
    dtype := (ts.headD default).dtype,
    device := (ts.headD default).device,
    shape := shape, strides := contigStrides shape,
    data := ts.foldl (fun acc t => acc ++ t.data) [],
    requires_grad := ts.any (fun t => t.requires_grad) }

/-- Tensor.to with optional dtype and device keyword arguments. -/
def Tensor.toDev (t : Tensor) (dtype : Option DType) (device : Option Nat) : Tensor :=
  { t with dtype := dtype.getD t.dtype, device := device.getD t.device }

/-- First entries of every shape in the list (the s[0] reads of
jagged_from_list); none models the IndexError on a rank-0 shape. -/
def sizesHeads : List (List Nat) → Option (List Int)
  | [] => some []
  | [] :: _ => none
  | (h :: _) :: rest => (sizesHeads rest).map (fun hs => (h : Int) :: hs)

/-- Python max of a list, reached only with a nonempty list. -/
def pyMax (l : List Int) : Int := l.foldl max (l.headD 0)

/-- Python min of a list, reached only with a nonempty list. -/
def pyMin (l : List Int) : Int := l.foldl min (l.headD 0)

/-- jagged_from_list: dtype and device uniformity checks, jagged-layout
representability check, concatenation of the values, computation of offsets
when absent, construction via ViewNestedFromBuffer.apply (which detaches the
buffer and calls the NestedTensor constructor with no cache), and the
overwrite of the metadata cache with the computed max and min sequence
lengths.  fresh is the object identity supply for the tensors this function
creates. -/
def jagged_from_list (st : NTState) (tensors : List Tensor)
    (offsets : Option Tensor) (dtype : Option DType) (device : Option Nat)
    (fresh : Vec) : Except Err (NestedTensor × Tensor) × NTState :=
  if (tensors.map (fun t => t.dtype)).dedup.length ≠ 1 then
    (Except.error Err.runtimeError, st)
  else if (tensors.map (fun t => t.device)).dedup.length ≠ 1 then
    (Except.error Err.runtimeError, st)
  else
    let sizes := tensors.map (fun t => t.shape)
    let non_first_sizes := sizes.map (fun s => s.drop 1)
    if ¬ (non_first_sizes.all (fun s => s = non_first_sizes.headD [])) then
      (Except.error Err.runtimeError, st)
    else
      let values := (cat0 tensors fresh).toDev dtype device
      let offsE : Except Err Tensor :=
        match offsets with
        | some o => Except.ok o
        | none =>
          match sizesHeads sizes with
          | none => Except.error Err.indexError
          | some hs =>
            Except.ok
              { oid := fresh + 1, kind := TKind.plain, dtype := DType.int64,
                device := values.device, shape := [tensors.length + 1],
                strides := [1], data := 0 :: cumsum hs, requires_grad := false }
      match offsE with
      | Except.error e => (Except.error e, st)
      | Except.ok offs =>
        match NestedTensor.init st values.detach offs none false 1 none with
        | (Except.error e, st2) => (Except.error e, st2)
        | (Except.ok nt, st2) =>
          match sizesHeads sizes with
          | none => (Except.error Err.indexError, st2)
          | some hs =>
            (Except.ok
              ({ nt with metadata_cache :=
                  [(maxSeqlenKey, pyMax hs), (minSeqlenKey, pyMin hs)] }, offs),
              st2)

-- ------------------------------------------------------------------
-- Evaluation lemmas for get_metadata and the constructor
-- ------------------------------------------------------------------

/-- get_metadata succeeds under the registry invariants, returns the current
canonical key with its dict (defaulting to empty), and touches only the
union-find (compression) and the defaulted metadata slot. -/
theorem NTState.get_metadata_spec (s : NTState) (v : Vec)
    (hinv : UFInv s.uf)
    (hmi : ∀ k, look s.metadata k = some Slot.invalid → ∃ p, look s.uf k = some p ∧ p ≠ k) :
    ∃ c uf2 st2,
      get_canonical_vec s.uf v = some (c, uf2) ∧
      NTState.get_metadata s v = some ((c, mdict (look s.metadata c)), st2) ∧
      st2.uf = uf2 ∧
      st2.metadata = (getDefaultM s.metadata c).2 ∧
      st2.counterIds = s.counterIds ∧
      st2.counterNext = s.counterNext ∧
      st2.weak = s.weak ∧
      UFInv st2.uf := by
  obtain ⟨c, uf2, hc⟩ := getCanon_total hinv v
  have hcnice : look s.uf c = some c ∨ look s.uf c = none := by
    rcases getCanon_inversion hc with ⟨hnone, hrv, _⟩ | ⟨l, hchain, _⟩
    · right
      rw [hrv]
      exact hnone
    · left
      exact hchain.root_look
  have hslot : look s.metadata c ≠ some Slot.invalid := by
    intro hbad
    obtain ⟨p, hp, hpne⟩ := hmi c hbad
    rcases hcnice with h | h
    · rw [h] at hp
      exact hpne (Option.some_injective _ hp).symm
    · rw [h] at hp
      exact Option.noConfusion hp
  refine ⟨c, uf2, { s with uf := uf2, metadata := (getDefaultM s.metadata c).2 },
    hc, ?_, rfl, rfl, rfl, rfl, rfl, ?_⟩
  · simp only [NTState.get_metadata, hc, getDefaultM_fst hslot]
  · exact UFInv_getCanon hc hinv

/-- Full evaluation of the NestedTensor constructor over an ordinary (plain)
ragged descriptor, for both verdicts of the values.requires_grad check: all
registry effects (id assignment, union-find registration, sum_vec write into
the canonical metadata dict) happen either way, and on success the
constructed object carries the given components. -/
theorem NestedTensor.init_spec (st : NTState) (values offsets : Tensor)
    (lengths : Option Tensor) (rg : Bool) (ri : Nat)
    (mc : Option (List (String × Int)))
    (hinv : UFInv st.uf)
    (hmi : ∀ k, look st.metadata k = some Slot.invalid → ∃ p, look st.uf k = some p ∧ p ≠ k)
    (hnd : offsets.shape.length = 1)
    (hkind : (lengths.getD offsets).kind = TKind.plain)
    (hshape : values.shape ≠ [])
    (hstr : ri - 1 < values.strides.length) :
    ∃ c uf2 st3,
      get_canonical_vec st.uf (lengths.getD offsets).oid = some (c, uf2) ∧
      look st3.metadata c =
        some (Slot.dict (alSet (mdict (look st.metadata c)) sumVecKey
          (values.shape.headD 0 : Int))) ∧
      (∀ x, x ≠ c → look st3.metadata x = look st.metadata x) ∧
      (∃ i, look st3.counterIds (lengths.getD offsets).oid = some i) ∧
      (∃ p2, look st3.uf (lengths.getD offsets).oid = some p2) ∧
      st3.weak = st.weak ∧
      UFInv st3.uf ∧
      (values.requires_grad = true →
        NestedTensor.init st values offsets lengths rg ri mc =
          (Except.error Err.valueError, st3)) ∧
      (values.requires_grad = false →
        ∃ nt, NestedTensor.init st values offsets lengths rg ri mc =
            (Except.ok nt, st3) ∧
          nt.values = values ∧ nt.offsets = offsets ∧ nt.lengths = lengths ∧
          nt.ragged_idx = ri ∧ nt.metadata_cache = mc.getD [] ∧
          nt.requires_grad = rg) := by
  have hndneg : ¬ offsets.shape.length ≠ 1 := by
    rw [hnd]
    simp
  have hk1 : ¬ ((lengths.getD offsets).kind = TKind.fake ∨
      (lengths.getD offsets).kind = TKind.functional) := by
    rw [hkind]
    simp
  have hst1uf : (TensorCounter.get_id st (lengths.getD offsets).oid).2.uf = st.uf :=
    get_id_snd_uf st (lengths.getD offsets).oid
  have hst1md : (TensorCounter.get_id st (lengths.getD offsets).oid).2.metadata = st.metadata :=
    get_id_snd_metadata st (lengths.getD offsets).oid
  have hst1w : (TensorCounter.get_id st (lengths.getD offsets).oid).2.weak = st.weak :=
    get_id_snd_weak st (lengths.getD offsets).oid
  obtain ⟨c, uf2, st2, hc, hgm, hst2uf, hst2md, hst2cid, hst2cn, hst2w, hinv2⟩ :=
    NTState.get_metadata_spec (TensorCounter.get_id st (lengths.getD offsets).oid).2
      (lengths.getD offsets).oid (by rw [hst1uf]; exact hinv)
      (by
        rw [hst1md, hst1uf]
        exact hmi)
  rw [hst1uf] at hc
  rw [hst1md] at hgm
  cases hv : values.shape with
  | nil => exact absurd hv hshape
  | cons v0 vrest =>
    cases hget : values.strides.get? (ri - 1) with
    | none =>
      rw [List.get?_eq_get hstr] at hget
      exact Option.noConfusion hget
    | some s0 =>
      have heval : ∀ res,
          (if values.requires_grad then (Except.error Err.valueError : Except Err NestedTensor)
            else res) = res ∨ values.requires_grad = true := by
        intro res
        cases hg : values.requires_grad
        · simp
        · exact Or.inr rfl
      have hd3 : ∃ st3 : NTState, st3 =
          { st2 with metadata := alSet st2.metadata c (Slot.dict (alSet (mdict (look st.metadata c)) sumVecKey (v0 : Int))) } :=
        ⟨_, rfl⟩
      obtain ⟨st3, hst3⟩ := hd3
      refine ⟨c, uf2, st3, hc, ?_, ?_, ?_, ?_, ?_, ?_, ?_, ?_⟩
      · rw [hst3]
        dsimp only
        rw [look_alSet_self]
        simp
      · intro x hx
        rw [hst3]
        dsimp only
        rw [look_alSet_ne _ hx, hst2md, getDefaultM_snd_look, if_neg hx, hst1md]
      · rw [hst3]
        dsimp only
        rw [hst2cid]
        exact get_id_registers st (lengths.getD offsets).oid
      · rw [hst3]
        dsimp only
        rw [hst2uf]
        obtain ⟨_, hl2, _⟩ := getCanon_props hc
        exact ⟨c, hl2⟩
      · rw [hst3]
        dsimp only
        rw [hst2w]
        exact hst1w
      · rw [hst3]
        dsimp only
        exact hinv2
      · intro hg
        rw [hst3]
        have hget2 : values.strides[ri - 1]? = some s0 := by
          rw [← List.get?_eq_getElem?]
          exact hget
        simp [NestedTensor.init, NTState.create_nested_int, hndneg, hk1, hgm, hv, hget,
          hget2, hg]
      · intro hg
        rw [hst3]
        simp only [NestedTensor.init, NTState.create_nested_int]
        simp only [hk1, false_and, if_false, if_neg hndneg]
        simp only [hgm, hv, hget, hg]
        simp only [Bool.false_eq_true, if_false]
        exact ⟨_, rfl, rfl, rfl, rfl, rfl, rfl, rfl⟩

-- ------------------------------------------------------------------
-- Dict-update lookup characterization
-- ------------------------------------------------------------------

theorem look_eq_none_of_not_mem {α β : Type} [DecidableEq α] {m : List (α × β)} {x : α}
    (h : x ∉ m.map Prod.fst) : look m x = none := by
  cases hl : look m x with
  | none => rfl
  | some v => exact absurd (look_some_mem_keys hl) h

/-- Lookup in the result of dict.update: the argument's binding wins whenever
present (update semantics), otherwise the receiver's binding remains. -/
theorem look_dictUpdate (a b : List (String × Int))
    (hb : (b.map Prod.fst).Nodup) (k : String) :
    look (dictUpdate a b) k =
      ((look b k).orElse (fun _ => look a k)) := by
  induction b generalizing a with
  | nil =>
    simp [dictUpdate, look, Option.orElse]
  | cons kv rest ih =>
    obtain ⟨k0, v0⟩ := kv
    simp only [List.map_cons, List.nodup_cons] at hb
    obtain ⟨hk0, hrest⟩ := hb
    have hstep : dictUpdate a ((k0, v0) :: rest) = dictUpdate (alSet a k0 v0) rest := rfl
    rw [hstep, ih (alSet a k0 v0) hrest]
    by_cases hk : k = k0
    · subst hk
      have hnone : look rest k = none :=
        look_eq_none_of_not_mem (by simpa using hk0)
      simp [look, hnone, look_alSet_self, Option.orElse]
    · simp [look, hk, look_alSet_ne _ hk]

theorem getDefaultM_of_look {m : List (Vec × Slot)} {k : Vec} {sl : Slot}
    (h : look m k = some sl) : getDefaultM m k = (sl, m) := by
  unfold getDefaultM
  rw [h]

-- ------------------------------------------------------------------
-- Claims C6, C2, C1, C3, C5
-- ------------------------------------------------------------------

/-- C6: for every pair of descriptors a and b, after
NestedTensorState.merge(a, b) returns, canonical-lookup on a and on b return
the same descriptor, and no subsequent canonical-lookup can loop forever (the
union-find never acquires a parent cycle of length greater than one, so every
lookup terminates).  Stated over registry states whose union-find satisfies
the no-cycle invariant UFInv and whose invalidated slots sit only at keys
that are not union-find roots; both hold for every state the registry API can
produce. -/
theorem claim_C6 (s : NTState) (a b : Vec)
    (hinv : UFInv s.uf)
    (hmi : ∀ k, look s.metadata k = some Slot.invalid → ∃ p, look s.uf k = some p ∧ p ≠ k)
    (hwi : ∀ k, look s.weak k = some WSlot.invalid → ∃ p, look s.uf k = some p ∧ p ≠ k) :
    ∃ s2, NTState.merge s a b = some s2 ∧
      (∃ r m2 m3, get_canonical_vec s2.uf a = some (r, m2) ∧
        get_canonical_vec s2.uf b = some (r, m3)) ∧
      (∀ v, ∃ r2 m2, get_canonical_vec s2.uf v = some (r2, m2)) := by
  obtain ⟨s2, h1, _, h3, h4⟩ := NTState.merge_total s a b hinv hmi hwi
  exact ⟨s2, h1, h3, h4⟩

/-- C6 witness: the merge of two fresh descriptors in a fresh registry. -/
theorem claim_C6_witness :
    ∃ s2, NTState.merge initState 0 1 = some s2 ∧
      (∃ r m2 m3, get_canonical_vec s2.uf 0 = some (r, m2) ∧
        get_canonical_vec s2.uf 1 = some (r, m3)) ∧
      (∀ v, ∃ r2 m2, get_canonical_vec s2.uf v = some (r2, m2)) :=
  claim_C6 initState 0 1 UFInv_nil
    (fun k h => by simp [initState, look] at h)
    (fun k h => by simp [initState, look] at h)

/-- C2 counterexample: merging two fresh descriptors 0 and 1 (pre-merge roots
0 and 1), canonical-lookup on the second argument afterwards returns its own
pre-merge root 1 - not 0, the first argument's root - so the first
argument's root does not become the canonical representative as the claim
states. -/
theorem claim_C2_counterexample :
    ((NTState.merge initState 0 1).bind
      (fun s2 => (get_canonical_vec s2.uf 1).map Prod.fst)) = some 1 ∧
    ((NTState.merge initState 0 1).bind
      (fun s2 => (get_canonical_vec s2.uf 0).map Prod.fst)) = some 1 ∧
    (1 : Vec) ≠ 0 := by
  decide

/-- C2 amended: when a and b canonicalize to different roots, the SECOND
argument's root becomes the new canonical representative: after
NestedTensorState.merge(a, b), canonical-lookup on a - and on every member x
of a's former class - returns the pre-merge root of b. -/
theorem claim_C2_amended (s : NTState) (a b ra rb : Vec) (uf1 uf2 : List (Vec × Vec))
    (hab : a ≠ b)
    (hca : get_canonical_vec s.uf a = some (ra, uf1))
    (hcb : get_canonical_vec uf1 b = some (rb, uf2))
    (hrarb : ra ≠ rb)
    (hma : look s.metadata ra ≠ some Slot.invalid)
    (hmb : look s.metadata rb ≠ some Slot.invalid)
    (hwa : look s.weak ra ≠ some WSlot.invalid)
    (hwb : look s.weak rb ≠ some WSlot.invalid) :
    ∃ s2, NTState.merge s a b = some s2 ∧
      (get_canonical_vec s2.uf a).map Prod.fst = some rb ∧
      (∀ x lx, RootChain s.uf x lx ra →
        (get_canonical_vec s2.uf x).map Prod.fst = some rb) := by
  obtain ⟨s2, hev, hufeq, _, _, _, _, _, _⟩ :=
    NTState.merge_spec s hab hca hcb hrarb hma hmb hwa hwb
  obtain ⟨huf1, hua, hura⟩ := getCanon_props hca
  obtain ⟨huf2, hub, hurb⟩ := getCanon_props hcb
  have hua2 : look uf2 a = some ra := by
    rw [huf2, look_alSet_ne _ hab]
    exact hua
  have hrab : ra ≠ b := by
    intro h
    have hbroot : RootChain uf1 b [b] b := RootChain.self b (h ▸ hura)
    have heq := getCanon_of_chain hbroot
    rw [hcb] at heq
    have hrbb : rb = b := by
      have := Option.some_injective _ heq
      exact (Prod.mk.injEq _ _ _ _ ▸ this).1
    exact hrarb (hrbb ▸ h)
  have hura2 : look uf2 ra = some ra := by
    rw [huf2, look_alSet_ne _ hrab]
    exact hura
  have hchaina : ∃ la, RootChain uf2 a la ra := by
    by_cases hara : a = ra
    · refine ⟨[a], ?_⟩
      have h0 : look uf2 a = some a := by rw [hua2, hara]
      exact hara ▸ RootChain.self a h0
    · exact ⟨[a, ra], RootChain.step a ra [ra] ra hua2 hara (RootChain.self ra hura2)⟩
  obtain ⟨la, hla⟩ := hchaina
  have hpa : RootChain (alSet uf2 ra rb) a (la ++ [rb]) rb :=
    hla.redirect_hit hurb hrarb
  refine ⟨s2, hev, ?_, ?_⟩
  · rw [hufeq, getCanon_of_chain hpa]
    rfl
  · intro x lx hx
    obtain ⟨lx1, hx1⟩ := getCanon_chain_stable hca hx
    obtain ⟨lx2, hx2⟩ := getCanon_chain_stable hcb hx1
    have hpx : RootChain (alSet uf2 ra rb) x (lx2 ++ [rb]) rb :=
      hx2.redirect_hit hurb hrarb
    rw [hufeq, getCanon_of_chain hpx]
    rfl

/-- C2 amended witness: a three-element registry where 2 is a member of root
0's class and 1 is its own root; after merge(2, 1) the lookup on 2 (a member
of the first argument's former class) returns 1, the second argument's
pre-merge root. -/
theorem claim_C2_amended_witness :
    ∃ s2, NTState.merge ⟨[(0, 0), (1, 1), (2, 0)], 0, [], [], []⟩ 2 1 = some s2 ∧
      (get_canonical_vec s2.uf 2).map Prod.fst = some 1 ∧
      (∀ x lx, RootChain [(0, 0), (1, 1), (2, 0)] x lx 0 →
        (get_canonical_vec s2.uf x).map Prod.fst = some 1) :=
  claim_C2_amended ⟨[(0, 0), (1, 1), (2, 0)], 0, [], [], []⟩ 2 1 0 1
    [(0, 0), (1, 1), (2, 0)] [(0, 0), (1, 1), (2, 0)]
    (by decide) (by decide) (by decide) (by decide)
    (by decide) (by decide) (by decide) (by decide)

/-- Offsets descriptor of the first constructed NestedTensor in the C1
scenario (object identity 0, boundaries of a 5-element buffer split 5). -/
def c1_off1 : Tensor := ⟨0, TKind.plain, DType.int64, 0, [2], [1], [0, 5], false⟩

/-- Values buffer of the first constructed NestedTensor in the C1 scenario
(five elements, so sum_vec is written as 5). -/
def c1_val1 : Tensor := ⟨10, TKind.plain, DType.float32, 0, [5], [1], [1, 1, 1, 1, 1], false⟩

/-- Offsets descriptor of the second constructed NestedTensor (object
identity 1). -/
def c1_off2 : Tensor := ⟨1, TKind.plain, DType.int64, 0, [2], [1], [0, 3], false⟩

/-- Values buffer of the second constructed NestedTensor (three elements, so
sum_vec is written as 3). -/
def c1_val2 : Tensor := ⟨11, TKind.plain, DType.float32, 0, [3], [1], [2, 2, 2], false⟩

/-- Registry state after constructing two NestedTensors over the descriptors
c1_off1 and c1_off2: each class's metadata dict holds its own sum_vec. -/
def c1_state : NTState :=
  (NestedTensor.init
    (NestedTensor.init initState c1_val1 c1_off1 none false 1 none).2
    c1_val2 c1_off2 none false 1 none).2

/-- C1 counterexample: after constructing a NestedTensor with 5 buffer rows
over descriptor 0 (sum_vec 5) and one with 3 buffer rows over descriptor 1
(sum_vec 3), merge(0, 1) leaves sum_vec = 3 in the merged dict: on the key
collision the TGT's value overwrote the src's, not the other way around as
the claim states (dict.update overwrites the receiver's entries). -/
theorem claim_C1_counterexample :
    (NTState.merge c1_state 0 1).map
        (fun s3 => look (mdict (look s3.metadata 1)) sumVecKey) = some (some 3) ∧
    (NTState.merge c1_state 0 1).map
        (fun s3 => look (mdict (look s3.metadata 1)) sumVecKey) ≠ some (some 5) ∧
    (NTState.merge c1_state 0 1).map (fun s3 => look s3.metadata 0) =
      some (some Slot.invalid) := by
  decide

/-- C1 amended: for distinct canonical roots, merge moves tgt's pre-merge
canonical metadata entries into src's pre-merge canonical metadata dict with
TGT's values winning on any key collision (dict.update semantics: the
argument's entries overwrite the receiver's); afterwards the merged dict is
live only under tgt's pre-merge canonical key, every other key is untouched,
and src's pre-merge canonical slot holds the invalidated sentinel. -/
theorem claim_C1_amended (s : NTState) (a b ra rb : Vec) (uf1 uf2 : List (Vec × Vec))
    (hab : a ≠ b)
    (hca : get_canonical_vec s.uf a = some (ra, uf1))
    (hcb : get_canonical_vec uf1 b = some (rb, uf2))
    (hrarb : ra ≠ rb)
    (hma : look s.metadata ra ≠ some Slot.invalid)
    (hmb : look s.metadata rb ≠ some Slot.invalid)
    (hwa : look s.weak ra ≠ some WSlot.invalid)
    (hwb : look s.weak rb ≠ some WSlot.invalid)
    (hndb : ((mdict (look s.metadata rb)).map Prod.fst).Nodup) :
    ∃ s2, NTState.merge s a b = some s2 ∧
      look s2.metadata rb = some (Slot.dict
        (dictUpdate (mdict (look s.metadata ra)) (mdict (look s.metadata rb)))) ∧
      (∀ k, look (dictUpdate (mdict (look s.metadata ra)) (mdict (look s.metadata rb))) k =
        ((look (mdict (look s.metadata rb)) k).orElse
          (fun _ => look (mdict (look s.metadata ra)) k))) ∧
      look s2.metadata ra = some Slot.invalid ∧
      (∀ k, k ≠ ra → k ≠ rb → look s2.metadata k = look s.metadata k) := by
  obtain ⟨s2, hev, _, hra, hrb2, hframe, _, _, _⟩ :=
    NTState.merge_spec s hab hca hcb hrarb hma hmb hwa hwb
  exact ⟨s2, hev, hrb2, fun k => look_dictUpdate _ _ hndb k, hra, hframe⟩

/-- C1 amended witness: two singleton classes holding sum_vec 5 and sum_vec 3
merged; tgt's 3 wins the collision, the dict lives under key 1, key 0 is
invalidated. -/
theorem claim_C1_amended_witness :
    ∃ s2, NTState.merge
        ⟨[(0, 0), (1, 1)], 0, [],
          [(0, Slot.dict [(sumVecKey, 5)]), (1, Slot.dict [(sumVecKey, 3)])], []⟩ 0 1 =
        some s2 ∧
      look s2.metadata 1 = some (Slot.dict (dictUpdate
        (mdict (look ([(0, Slot.dict [(sumVecKey, 5)]), (1, Slot.dict [(sumVecKey, 3)])] :
          List (Vec × Slot)) 0))
        (mdict (look ([(0, Slot.dict [(sumVecKey, 5)]), (1, Slot.dict [(sumVecKey, 3)])] :
          List (Vec × Slot)) 1)))) ∧
      (∀ k, look (dictUpdate
        (mdict (look ([(0, Slot.dict [(sumVecKey, 5)]), (1, Slot.dict [(sumVecKey, 3)])] :
          List (Vec × Slot)) 0))
        (mdict (look ([(0, Slot.dict [(sumVecKey, 5)]), (1, Slot.dict [(sumVecKey, 3)])] :
          List (Vec × Slot)) 1))) k =
        ((look (mdict (look ([(0, Slot.dict [(sumVecKey, 5)]), (1, Slot.dict [(sumVecKey, 3)])] :
          List (Vec × Slot)) 1)) k).orElse
          (fun _ => look (mdict (look ([(0, Slot.dict [(sumVecKey, 5)]),
            (1, Slot.dict [(sumVecKey, 3)])] : List (Vec × Slot)) 0)) k))) ∧
      look s2.metadata 0 = some Slot.invalid ∧
      (∀ k, k ≠ 0 → k ≠ 1 → look s2.metadata k =
        look ([(0, Slot.dict [(sumVecKey, 5)]), (1, Slot.dict [(sumVecKey, 3)])] :
          List (Vec × Slot)) k) :=
  claim_C1_amended
    ⟨[(0, 0), (1, 1)], 0, [],
      [(0, Slot.dict [(sumVecKey, 5)]), (1, Slot.dict [(sumVecKey, 3)])], []⟩
    0 1 0 1 [(0, 0), (1, 1)] [(0, 0), (1, 1)]
    (by decide) (by decide) (by decide) (by decide)
    (by decide) (by decide) (by decide) (by decide) (by decide)

/-- C3 counterexample: after merge(0, 1) of two fresh descriptors, the
descriptor 0 was canonical before the merge and is non-canonical afterwards;
get_metadata(0) does not assert - it resolves through the union-find to the
new canonical 1 and returns that live dict. -/
theorem claim_C3_counterexample :
    (NTState.merge initState 0 1).bind
        (fun s2 => (NTState.get_metadata s2 0).map (fun r => r.1)) =
      some (1, []) := by
  decide

/-- C3 amended: after a merge makes a previously-canonical descriptor ra
non-canonical, get_metadata(ra) succeeds: it resolves ra through the
union-find to the current canonical rb and returns the live merged metadata
dict (the invariant assertion does not fire for such stale keys). -/
theorem claim_C3_amended (s : NTState) (a b ra rb : Vec) (uf1 uf2 : List (Vec × Vec))
    (hab : a ≠ b)
    (hca : get_canonical_vec s.uf a = some (ra, uf1))
    (hcb : get_canonical_vec uf1 b = some (rb, uf2))
    (hrarb : ra ≠ rb)
    (hma : look s.metadata ra ≠ some Slot.invalid)
    (hmb : look s.metadata rb ≠ some Slot.invalid)
    (hwa : look s.weak ra ≠ some WSlot.invalid)
    (hwb : look s.weak rb ≠ some WSlot.invalid) :
    ∃ s2 st2, NTState.merge s a b = some s2 ∧
      NTState.get_metadata s2 ra = some ((rb,
        dictUpdate (mdict (look s.metadata ra)) (mdict (look s.metadata rb))), st2) := by
  obtain ⟨s2, hev, hufeq, hra, hrb2, _, _, _, _⟩ :=
    NTState.merge_spec s hab hca hcb hrarb hma hmb hwa hwb
  obtain ⟨huf2, hub, hurb⟩ := getCanon_props hcb
  have hbra : rb ≠ ra := fun h => hrarb h.symm
  have hlra : look s2.uf ra = some rb := by
    rw [hufeq]
    exact look_alSet_self uf2 ra rb
  have hlrb : look s2.uf rb = some rb := by
    rw [hufeq, look_alSet_ne _ hbra]
    exact hurb
  have hchain : RootChain s2.uf ra [ra, rb] rb :=
    RootChain.step ra rb [rb] rb hlra hrarb (RootChain.self rb hlrb)
  have hcanon : get_canonical_vec s2.uf ra = some (rb, alSet s2.uf ra rb) :=
    getCanon_of_chain hchain
  refine ⟨s2, { s2 with uf := alSet s2.uf ra rb, metadata := s2.metadata }, hev, ?_⟩
  simp only [NTState.get_metadata, hcanon, getDefaultM_of_look hrb2]

/-- C3 amended witness: the two-singleton-class scenario; after merge(0, 1)
the stale key 0 resolves to canonical 1 and get_metadata returns the merged
dict holding sum_vec 3. -/
theorem claim_C3_amended_witness :
    ∃ s2 st2, NTState.merge
        ⟨[(0, 0), (1, 1)], 0, [],
          [(0, Slot.dict [(sumVecKey, 5)]), (1, Slot.dict [(sumVecKey, 3)])], []⟩ 0 1 =
        some s2 ∧
      NTState.get_metadata s2 0 = some ((1,
        dictUpdate
          (mdict (look ([(0, Slot.dict [(sumVecKey, 5)]), (1, Slot.dict [(sumVecKey, 3)])] :
            List (Vec × Slot)) 0))
          (mdict (look ([(0, Slot.dict [(sumVecKey, 5)]), (1, Slot.dict [(sumVecKey, 3)])] :
            List (Vec × Slot)) 1))), st2) :=
  claim_C3_amended
    ⟨[(0, 0), (1, 1)], 0, [],
      [(0, Slot.dict [(sumVecKey, 5)]), (1, Slot.dict [(sumVecKey, 3)])], []⟩
    0 1 0 1 [(0, 0), (1, 1)] [(0, 0), (1, 1)]
    (by decide) (by decide) (by decide) (by decide)
    (by decide) (by decide) (by decide) (by decide)

/-- Registry state after one get_metadata call on the fresh descriptor 0:
descriptor 0 is canonical (its own union-find root) and its slot holds a live
empty dict - exactly the situation the documented invariant allows. -/
def c5_state : NTState := ⟨[(0, 0)], 0, [], [(0, Slot.dict [])], []⟩

/-- C5: validate_invariants as written asserts that being canonical is
equivalent to the slot BEING the invalidated sentinel; on the reachable state
c5_state, where the documented invariant (canonical iff slot NOT invalidated)
holds, the source's check fails (AssertionError, result false) while the
documented check passes.  The code inverts the documented equivalence. -/
theorem claim_C5_divergence :
    (NTState.get_metadata initState 0).map (fun r => r.2) = some c5_state ∧
    NTState.validate_invariants c5_state = some false ∧
    NTState.validate_invariants_spec c5_state = some true := by
  decide

/-- C4 (member registration modelled from the spec; see register_member):
registering three distinct descriptors a, b, c into a fresh registry and
merging via merge(a, b) then merge(b, c), get_equivalent_vecs(a) yields
exactly the currently-live descriptors among a, b and c - dead weak
references (identities outside live) are skipped. -/
theorem claim_C4 (a b c : Vec) (hab : a ≠ b) (hbc : b ≠ c) (hac : a ≠ c)
    (live : List Vec) :
    ∃ s3 s4 s5 out s6,
      ((NTState.register_member initState a).bind
        (fun s1 => (NTState.register_member s1 b).bind
          (fun s2 => NTState.register_member s2 c))) = some s3 ∧
      NTState.merge s3 a b = some s4 ∧
      NTState.merge s4 b c = some s5 ∧
      NTState.get_equivalent_vecs s5 live a = some (out, s6) ∧
      (∀ x, x ∈ out ↔ (x ∈ live ∧ (x = a ∨ x = b ∨ x = c))) := by
  have hba : b ≠ a := Ne.symm hab
  have hcb : c ≠ b := Ne.symm hbc
  have hca : c ≠ a := Ne.symm hac
  have h1 : NTState.register_member initState a =
      some ⟨[(a, a)], 0, [], [], [(a, WSlot.wset [a])]⟩ := by
    simp [NTState.register_member, initState, get_canonical_vec, look, getDefaultW,
      alSet, setInsert]
  have h2 : NTState.register_member ⟨[(a, a)], 0, [], [], [(a, WSlot.wset [a])]⟩ b =
      some ⟨[(a, a), (b, b)], 0, [], [], [(a, WSlot.wset [a]), (b, WSlot.wset [b])]⟩ := by
    simp [NTState.register_member, get_canonical_vec, look, getDefaultW,
      alSet, setInsert, hba, hab]
  have h3 : NTState.register_member
      ⟨[(a, a), (b, b)], 0, [], [], [(a, WSlot.wset [a]), (b, WSlot.wset [b])]⟩ c =
      some ⟨[(a, a), (b, b), (c, c)], 0, [],
        [], [(a, WSlot.wset [a]), (b, WSlot.wset [b]), (c, WSlot.wset [c])]⟩ := by
    simp [NTState.register_member, get_canonical_vec, look, getDefaultW,
      alSet, setInsert, hca, hcb, hac, hbc]
  have h4 : NTState.merge ⟨[(a, a), (b, b), (c, c)], 0, [],
      [], [(a, WSlot.wset [a]), (b, WSlot.wset [b]), (c, WSlot.wset [c])]⟩ a b =
      some ⟨[(a, b), (b, b), (c, c)], 2, [(a, 0), (b, 1)],
        [(a, Slot.invalid), (b, Slot.dict [])],
        [(a, WSlot.invalid), (b, WSlot.wset [b, a]), (c, WSlot.wset [c])]⟩ := by
    simp [NTState.merge, get_canonical_vec, chase, UnionFind.merge, TensorCounter.get_id,
      getDefaultM, getDefaultW, dictUpdate, setUpdate, setInsert, look, alSet,
      hab, hba, hbc, hcb, hac, hca]
  have h5 : NTState.merge ⟨[(a, b), (b, b), (c, c)], 2, [(a, 0), (b, 1)],
      [(a, Slot.invalid), (b, Slot.dict [])],
      [(a, WSlot.invalid), (b, WSlot.wset [b, a]), (c, WSlot.wset [c])]⟩ b c =
      some ⟨[(a, b), (b, c), (c, c)], 3, [(a, 0), (b, 1), (c, 2)],
        [(a, Slot.invalid), (b, Slot.invalid), (c, Slot.dict [])],
        [(a, WSlot.invalid), (b, WSlot.invalid), (c, WSlot.wset [c, b, a])]⟩ := by
    simp [NTState.merge, get_canonical_vec, chase, UnionFind.merge, TensorCounter.get_id,
      getDefaultM, getDefaultW, dictUpdate, setUpdate, setInsert, look, alSet,
      hab, hba, hbc, hcb, hac, hca]
  have h6 : NTState.get_equivalent_vecs ⟨[(a, b), (b, c), (c, c)], 3,
      [(a, 0), (b, 1), (c, 2)],
      [(a, Slot.invalid), (b, Slot.invalid), (c, Slot.dict [])],
      [(a, WSlot.invalid), (b, WSlot.invalid), (c, WSlot.wset [c, b, a])]⟩ live a =
      some ([c, b, a].filter (fun x => decide (x ∈ live)),
        ⟨[(a, c), (b, c), (c, c)], 3, [(a, 0), (b, 1), (c, 2)],
          [(a, Slot.invalid), (b, Slot.invalid), (c, Slot.dict [])],
          [(a, WSlot.invalid), (b, WSlot.invalid), (c, WSlot.wset [c, b, a])]⟩) := by
    simp [NTState.get_equivalent_vecs, get_canonical_vec, chase, getDefaultW, look, alSet,
      hab, hba, hbc, hcb, hac, hca]
  refine ⟨_, _, _, _, _, ?_, h4, h5, h6, ?_⟩
  · rw [h1]
    simp only [Option.some_bind]
    rw [h2]
    simp only [Option.some_bind]
    exact h3
  · intro x
    simp only [List.mem_filter, decide_eq_true_eq]
    constructor
    · rintro ⟨hm, hl⟩
      refine ⟨hl, ?_⟩
      rcases List.mem_cons.mp hm with h | hm2
      · exact Or.inr (Or.inr h)
      rcases List.mem_cons.mp hm2 with h | hm3
      · exact Or.inr (Or.inl h)
      rcases List.mem_cons.mp hm3 with h | hm4
      · exact Or.inl h
      · simp at hm4
    · rintro ⟨hl, h | h | h⟩
      · exact ⟨by simp [h], hl⟩
      · exact ⟨by simp [h], hl⟩
      · exact ⟨by simp [h], hl⟩

/-- C4 witness: descriptors 0, 1, 2 with only 0 and 2 still live. -/
theorem claim_C4_witness :
    ∃ s3 s4 s5 out s6,
      ((NTState.register_member initState 0).bind
        (fun s1 => (NTState.register_member s1 1).bind
          (fun s2 => NTState.register_member s2 2))) = some s3 ∧
      NTState.merge s3 0 1 = some s4 ∧
      NTState.merge s4 1 2 = some s5 ∧
      NTState.get_equivalent_vecs s5 [0, 2] 0 = some (out, s6) ∧
      (∀ x, x ∈ out ↔ (x ∈ [0, 2] ∧ (x = 0 ∨ x = 1 ∨ x = 2))) :=
  claim_C4 0 1 2 (by decide) (by decide) (by decide) [0, 2]

-- ------------------------------------------------------------------
-- Claims C7, C8, C9, C10
-- ------------------------------------------------------------------

/-- C7: flattening a NestedTensor via __tensor_flatten__ and rebuilding it
via __tensor_unflatten__ with a non-traced, ordinary (plain) ragged
descriptor produces a NestedTensor with equal values, offsets, lengths,
ragged_idx and metadata-cache contents.  The well-formedness hypotheses are
the constructor's own validation (rank-1 offsets, detached nonempty values
with enough strides), and the registry hypotheses hold for every reachable
state. -/
theorem claim_C7 (st : NTState) (nt : NestedTensor) (outer_size : List Dim)
    (hinv : UFInv st.uf)
    (hmi : ∀ k, look st.metadata k = some Slot.invalid → ∃ p, look st.uf k = some p ∧ p ≠ k)
    (hnd : nt.offsets.shape.length = 1)
    (hkind : (nt.lengths.getD nt.offsets).kind = TKind.plain)
    (hshape : nt.values.shape ≠ [])
    (hstr : nt.ragged_idx - 1 < nt.values.strides.length)
    (hgrad : nt.values.requires_grad = false) :
    ∃ nt2 st2,
      NestedTensor.tensor_unflatten st (NestedTensor.tensor_flatten nt).1
        (NestedTensor.tensor_flatten nt).2 outer_size = (Except.ok nt2, st2) ∧
      nt2.values = nt.values ∧ nt2.offsets = nt.offsets ∧ nt2.lengths = nt.lengths ∧
      nt2.ragged_idx = nt.ragged_idx ∧ nt2.metadata_cache = nt.metadata_cache := by
  have hk1 : ¬ ((nt.lengths.getD nt.offsets).kind = TKind.fake ∨
      (nt.lengths.getD nt.offsets).kind = TKind.functional) := by
    rw [hkind]
    simp
  obtain ⟨c, uf2, st3, hc, hmd, hframe, hcid, hp, hw, hufinv, herr, hok⟩ :=
    NestedTensor.init_spec st nt.values nt.offsets nt.lengths nt.requires_grad
      nt.ragged_idx (some nt.metadata_cache) hinv hmi hnd hkind hshape hstr
  obtain ⟨nt2, heq, hv, hof, hl, hri, hmc, hrg⟩ := hok hgrad
  have hun : NestedTensor.tensor_unflatten st (NestedTensor.tensor_flatten nt).1
      (NestedTensor.tensor_flatten nt).2 outer_size =
      NestedTensor.init st nt.values nt.offsets nt.lengths nt.requires_grad
        nt.ragged_idx (some nt.metadata_cache) := by
    simp [NestedTensor.tensor_unflatten, NestedTensor.tensor_flatten, hk1]
  refine ⟨nt2, st3, ?_, hv, hof, hl, hri, ?_⟩
  · rw [hun, heq]
  · rw [hmc]
    rfl

/-- C7 witness: a concrete jagged array over a plain offsets descriptor in a
fresh registry round-trips. -/
theorem claim_C7_witness :
    ∃ nt2 st2,
      NestedTensor.tensor_unflatten initState
        (NestedTensor.tensor_flatten
          ⟨⟨10, TKind.plain, DType.int64, 0, [5], [1], [1, 2, 3, 4, 5], false⟩,
            ⟨0, TKind.plain, DType.int64, 0, [3], [1], [0, 3, 5], false⟩,
            none, 1, [(maxSeqlenKey, 3)], false, [], []⟩).1
        (NestedTensor.tensor_flatten
          ⟨⟨10, TKind.plain, DType.int64, 0, [5], [1], [1, 2, 3, 4, 5], false⟩,
            ⟨0, TKind.plain, DType.int64, 0, [3], [1], [0, 3, 5], false⟩,
            none, 1, [(maxSeqlenKey, 3)], false, [], []⟩).2 [] = (Except.ok nt2, st2) ∧
      nt2.values = (⟨⟨10, TKind.plain, DType.int64, 0, [5], [1], [1, 2, 3, 4, 5], false⟩,
            ⟨0, TKind.plain, DType.int64, 0, [3], [1], [0, 3, 5], false⟩,
            none, 1, [(maxSeqlenKey, 3)], false, [], []⟩ : NestedTensor).values ∧
      nt2.offsets = (⟨⟨10, TKind.plain, DType.int64, 0, [5], [1], [1, 2, 3, 4, 5], false⟩,
            ⟨0, TKind.plain, DType.int64, 0, [3], [1], [0, 3, 5], false⟩,
            none, 1, [(maxSeqlenKey, 3)], false, [], []⟩ : NestedTensor).offsets ∧
      nt2.lengths = none ∧ nt2.ragged_idx = 1 ∧
      nt2.metadata_cache = [(maxSeqlenKey, 3)] :=
  claim_C7 initState
    ⟨⟨10, TKind.plain, DType.int64, 0, [5], [1], [1, 2, 3, 4, 5], false⟩,
      ⟨0, TKind.plain, DType.int64, 0, [3], [1], [0, 3, 5], false⟩,
      none, 1, [(maxSeqlenKey, 3)], false, [], []⟩ []
    UFInv_nil (fun k h => by simp [initState, look] at h)
    (by decide) (by decide) (by decide) (by decide) (by decide)

/-- First input tensor of the C8 scenario: the row [1, 2, 3]. -/
def c8_t1 : Tensor := ⟨0, TKind.plain, DType.int64, 0, [3], [1], [1, 2, 3], false⟩

/-- Second input tensor of the C8 scenario: the row [4, 5]. -/
def c8_t2 : Tensor := ⟨1, TKind.plain, DType.int64, 0, [2], [1], [4, 5], false⟩

/-- C8: jagged_from_list on [[1,2,3],[4,5]] (same dtype and device) with no
explicit offsets returns a NestedTensor whose offsets data is [0, 3, 5],
whose values buffer is the concatenation [1, 2, 3, 4, 5] of shape [5], and
whose metadata cache holds max_seqlen 3 and min_seqlen 2. -/
theorem claim_C8 :
    ((jagged_from_list initState [c8_t1, c8_t2] none none none 10).1.toOption.map
      (fun r => (r.1.values.data, r.1.values.shape, r.2.data, r.1.offsets.data,
        look r.1.metadata_cache maxSeqlenKey, look r.1.metadata_cache minSeqlenKey))) =
      some ([1, 2, 3, 4, 5], [5], [0, 3, 5], [0, 3, 5], some 3, some 2) := by
  rfl

/-- C9: when NestedTensor construction is rejected because
values.requires_grad is true (all earlier validation passing, the descriptor
being an ordinary plain tensor), the registry has already been mutated before
the ValueError: the chosen descriptor (offsets, or lengths when provided) has
a TensorCounter id and a union-find entry, and its class's canonical metadata
dict holds sum_vec = values.shape[0]; the rejection returns that mutated
state unchanged. -/
theorem claim_C9 (st : NTState) (values offsets : Tensor) (lengths : Option Tensor)
    (rg : Bool) (ri : Nat) (mc : Option (List (String × Int)))
    (hinv : UFInv st.uf)
    (hmi : ∀ k, look st.metadata k = some Slot.invalid → ∃ p, look st.uf k = some p ∧ p ≠ k)
    (hnd : offsets.shape.length = 1)
    (hkind : (lengths.getD offsets).kind = TKind.plain)
    (hshape : values.shape ≠ [])
    (hstr : ri - 1 < values.strides.length)
    (hgrad : values.requires_grad = true) :
    ∃ c uf2 st3,
      NestedTensor.init st values offsets lengths rg ri mc =
        (Except.error Err.valueError, st3) ∧
      (∃ i, look st3.counterIds (lengths.getD offsets).oid = some i) ∧
      (∃ p2, look st3.uf (lengths.getD offsets).oid = some p2) ∧
      get_canonical_vec st.uf (lengths.getD offsets).oid = some (c, uf2) ∧
      look st3.metadata c = some (Slot.dict (alSet (mdict (look st.metadata c)) sumVecKey
        (values.shape.headD 0 : Int))) ∧
      look (alSet (mdict (look st.metadata c)) sumVecKey (values.shape.headD 0 : Int))
        sumVecKey = some (values.shape.headD 0 : Int) := by
  obtain ⟨c, uf2, st3, hc, hmd, hframe, hcid, hp, hw, hufinv, herr, hok⟩ :=
    NestedTensor.init_spec st values offsets lengths rg ri mc hinv hmi hnd hkind hshape hstr
  exact ⟨c, uf2, st3, herr hgrad, hcid, hp, hc, hmd,
    look_alSet_self (mdict (look st.metadata c)) sumVecKey (values.shape.headD 0 : Int)⟩

/-- C9 witness: a gradient-tracking values buffer over a fresh plain offsets
descriptor in a fresh registry. -/
theorem claim_C9_witness :
    ∃ c uf2 st3,
      NestedTensor.init initState
          ⟨10, TKind.plain, DType.float32, 0, [5], [1], [1, 1, 1, 1, 1], true⟩
          ⟨0, TKind.plain, DType.int64, 0, [3], [1], [0, 3, 5], false⟩
          none false 1 none =
        (Except.error Err.valueError, st3) ∧
      (∃ i, look st3.counterIds 0 = some i) ∧
      (∃ p2, look st3.uf 0 = some p2) ∧
      get_canonical_vec initState.uf 0 = some (c, uf2) ∧
      look st3.metadata c = some (Slot.dict (alSet (mdict (look initState.metadata c))
        sumVecKey 5)) ∧
      look (alSet (mdict (look initState.metadata c)) sumVecKey 5) sumVecKey = some 5 :=
  claim_C9 initState
    ⟨10, TKind.plain, DType.float32, 0, [5], [1], [1, 1, 1, 1, 1], true⟩
    ⟨0, TKind.plain, DType.int64, 0, [3], [1], [0, 3, 5], false⟩
    none false 1 none
    UFInv_nil (fun k h => by simp [initState, look] at h)
    (by decide) (by decide) (by decide) (by decide) (by decide)

/-- C10: every successful NestedTensor construction writes exactly the one
key sum_vec = values.shape[0] into the descriptor's class metadata dict,
unconditionally overwriting any previous value at that key, leaving every
other key of that dict unchanged and every other class's slot untouched. -/
theorem claim_C10 (st : NTState) (values offsets : Tensor) (lengths : Option Tensor)
    (rg : Bool) (ri : Nat) (mc : Option (List (String × Int)))
    (hinv : UFInv st.uf)
    (hmi : ∀ k, look st.metadata k = some Slot.invalid → ∃ p, look st.uf k = some p ∧ p ≠ k)
    (hnd : offsets.shape.length = 1)
    (hkind : (lengths.getD offsets).kind = TKind.plain)
    (hshape : values.shape ≠ [])
    (hstr : ri - 1 < values.strides.length)
    (hgrad : values.requires_grad = false) :
    ∃ c uf2 st3 nt,
      get_canonical_vec st.uf (lengths.getD offsets).oid = some (c, uf2) ∧
      NestedTensor.init st values offsets lengths rg ri mc = (Except.ok nt, st3) ∧
      look st3.metadata c = some (Slot.dict (alSet (mdict (look st.metadata c)) sumVecKey
        (values.shape.headD 0 : Int))) ∧
      look (alSet (mdict (look st.metadata c)) sumVecKey (values.shape.headD 0 : Int))
        sumVecKey = some (values.shape.headD 0 : Int) ∧
      (∀ k, k ≠ sumVecKey →
        look (alSet (mdict (look st.metadata c)) sumVecKey (values.shape.headD 0 : Int)) k =
          look (mdict (look st.metadata c)) k) ∧
      (∀ x, x ≠ c → look st3.metadata x = look st.metadata x) := by
  obtain ⟨c, uf2, st3, hc, hmd, hframe, hcid, hp, hw, hufinv, herr, hok⟩ :=
    NestedTensor.init_spec st values offsets lengths rg ri mc hinv hmi hnd hkind hshape hstr
  obtain ⟨nt, heq, _, _, _, _, _, _⟩ := hok hgrad
  refine ⟨c, uf2, st3, nt, hc, heq, hmd, ?_, ?_, hframe⟩
  · exact look_alSet_self (mdict (look st.metadata c)) sumVecKey (values.shape.headD 0 : Int)
  · intro k hk
    exact look_alSet_ne _ hk

/-- C10 witness: two successive constructions over the same descriptor; the
second overwrites sum_vec (from 5 to 3) and leaves nothing else. -/
theorem claim_C10_witness :
    ∃ c uf2 st3 nt,
      get_canonical_vec initState.uf 0 = some (c, uf2) ∧
      NestedTensor.init initState
          ⟨10, TKind.plain, DType.float32, 0, [5], [1], [1, 1, 1, 1, 1], false⟩
          ⟨0, TKind.plain, DType.int64, 0, [3], [1], [0, 3, 5], false⟩
          none false 1 none = (Except.ok nt, st3) ∧
      look st3.metadata c = some (Slot.dict (alSet (mdict (look initState.metadata c))
        sumVecKey 5)) ∧
      look (alSet (mdict (look initState.metadata c)) sumVecKey 5) sumVecKey = some 5 ∧
      (∀ k, k ≠ sumVecKey →
        look (alSet (mdict (look initState.metadata c)) sumVecKey 5) k =
          look (mdict (look initState.metadata c)) k) ∧
      (∀ x, x ≠ c → look st3.metadata x = look initState.metadata x) :=
  claim_C10 initState
    ⟨10, TKind.plain, DType.float32, 0, [5], [1], [1, 1, 1, 1, 1], false⟩
    ⟨0, TKind.plain, DType.int64, 0, [3], [1], [0, 3, 5], false⟩
    none false 1 none
    UFInv_nil (fun k h => by simp [initState, look] at h)
    (by decide) (by decide) (by decide) (by decide) (by decide)

end NTSpec
